import Mathlib

set_option maxHeartbeats 1000000

/-
Sequential shallow embedding of the non-blocking hash map in src/nbhashmap.c.

The source is a lock-free open-addressing hash table.  This development models
its *sequential* executions: a single thread runs one public operation to
completion before the next starts.  Under that regime every compare-and-swap
in the source succeeds on its first attempt (there is no racing writer), the
`yield`-spin loops never iterate, and the map-level `_nkvs` pointer is null at
every call boundary (a resize triggered inside `_putif` runs inline to
completion before `_putif` returns SIZED).  Branches of the source that are
reachable only through a lost race are noted in comments at the point where
the model omits or collapses them.

Pointers are modelled as follows.  A user key pointer is a pair of a pointer
identity `id` (what the caller-supplied destructor `free_func` receives; two
calls may pass distinct pointers with equal contents) and a `content` (what
`equals_func` compares and `hash_func` hashes).  A user value pointer is a
`Nat`, with `0` playing the role of the null pointer (deleted / absent).  The
process-unique sentinels SIZED, IGNORE and DELETED are distinct constructors,
never equal to any user pointer, exactly as the distinct static addresses in
the source.

Loops are given explicit fuel and return `Option`; `none` means the source
would not have terminated (or would have died on a `fatal`/corrupting branch
that sequential executions cannot reach).
-/

/-- Model of a user key pointer handed to `hashmap_putif`: `id` is the pointer
identity (tracked by the key-destructor accounting), `content` is what the
caller-supplied `equals_func` compares and `hash_func` hashes. -/
structure KeyPtr where
  id : Nat
  content : Nat
deriving DecidableEq

/-- Model of the `_key` field of a `struct entry`: null (free slot), the SIZED
sentinel, or a user key pointer. -/
inductive KeyF where
  | free
  | sized
  | ptr (k : KeyPtr)
deriving DecidableEq

/-- Model of the `_val` field of a `struct entry`: the SIZED sentinel or a user
value pointer, where `user 0` is the null pointer (tombstone / absent). -/
inductive ValF where
  | sized
  | user (v : Nat)
deriving DecidableEq

/-- Model of the `oldval` argument of `_putif`: the IGNORE sentinel or a user
value pointer (`user 0` is the null pointer). -/
inductive OldV where
  | ignore
  | user (v : Nat)
deriving DecidableEq

/-- Model of `struct entry`: the `(key, hash, value)` slot triple. -/
structure Entry where
  key : KeyF
  hash : Nat
  val : ValF
deriving DecidableEq

instance : Inhabited Entry :=
  ⟨⟨KeyF.free, 0, ValF.user 0⟩⟩

/-- Result of the internal engines.  `sized` and `deleted` model returning the
SIZED resp. DELETED sentinel; `limit` marks the reprobe-limit exit of the
probe loop of `_putif` (the source there tail-calls `_resize` and returns its
SIZED result; the model performs that in `_putif` below); `val v` models
returning the user value pointer `v` (with `val 0` the null pointer). -/
inductive PutOut where
  | sized
  | deleted
  | limit
  | val (v : Nat)
deriving DecidableEq

/-- Map-level state other than the table itself: the `_size` counter (a signed
integer), the `changes` counter, and the accounting list of key-pointer
identities passed to the caller-supplied `free_func`, in call order. -/
structure MState where
  size : Int
  changes : Nat
  freed : List Nat
deriving DecidableEq

/-- Model of `struct HashMap` at a sequential call boundary: the current table
`_kvs` plus the map-level state.  `_nkvs` is null at every call boundary of a
sequential execution, so it is not part of the state. -/
structure HM where
  kvs : List Entry
  ms : MState
deriving DecidableEq

/-- `#define INITIAL_SIZE 4`. -/
def INITIAL_SIZE : Nat := 4

/-- `#define REPROBE_LIMIT 17`. -/
def REPROBE_LIMIT : Nat := 17

/-- Hash clamp performed by `hashmap_get` and `hashmap_putif`: the result of
the caller-supplied hash function with a zero hash remapped to 1 (hash 0 is
reserved to mean "key claimed, hash not yet written"). -/
def hmHash (hashFn : Nat → Nat) (c : Nat) : Nat :=
  if hashFn c = 0 then 1 else hashFn c

/-- Second phase of `_putif` (starting at `void *v = getval(e)`), updating the
value of the located slot `idx`.  Sequentially the value CAS succeeds on its
first attempt, so the source's retry loop runs exactly once.  The
resize-in-progress abandon check (`map->_nkvs`/`map->_kvs`) is skipped: at
every sequential call boundary `_nkvs` is null and `_kvs` is the table being
operated on, so that branch is never taken.  On an `oldval` mismatch in
resize-copy mode the source dies with `fatal(...)`, modelled as `none`. -/
def putifValue (resizing mustfreekey : Bool) (kvs : List Entry) (ms : MState)
    (idx : Nat) (key : KeyPtr) (val : Nat) (oldval : OldV) :
    Option (List Entry × MState × PutOut) :=
  match (kvs.getD idx default).val with
  | ValF.sized => some (kvs, ms, PutOut.sized)
  | ValF.user v =>
    if oldval ≠ OldV.ignore ∧ oldval ≠ OldV.user v then
      if resizing then none
      else some (kvs, ms, PutOut.val v)
    else
      some (kvs.set idx { kvs.getD idx default with val := ValF.user val },
        { size :=
            if resizing = false ∧ v = 0 ∧ val ≠ 0 then ms.size + 1
            else if resizing = false ∧ v ≠ 0 ∧ val = 0 then ms.size - 1
            else ms.size,
          changes := if resizing = false then ms.changes + 1 else ms.changes,
          freed := if mustfreekey then ms.freed ++ [key.id] else ms.freed },
        PutOut.val v)

/-- First phase of `_putif`: the probe loop, fueled.  Sequentially the two key
CASes (`cas(&e->_key, null, null)` and `cas(&e->_key, key, null)`) succeed on
their first attempt, so the re-read-and-fall-through path after a lost claim
race is never taken, and the hash is published together with the key.
`gethash`'s spin on a zero hash would never terminate sequentially (no other
thread is left to publish the hash), modelled as `none`.  The reprobe counter
is incremented (and checked against `REPROBE_LIMIT`) only outside resize-copy
mode, exactly as `!resizing && ++reprobe_try >= REPROBE_LIMIT`. -/
def putifProbe (resizing : Bool) (key : KeyPtr) (hash : Nat) (val : Nat) (oldval : OldV) :
    Nat → List Entry → MState → Nat → Nat → Option (List Entry × MState × PutOut)
  | 0, _, _, _, _ => none
  | fuel + 1, kvs, ms, idx, reprobeTry =>
    match (kvs.getD idx default).key with
    | KeyF.free =>
      if val = 0 ∧ (oldval = OldV.ignore ∨ oldval = OldV.user 0) then
        if resizing then some (kvs, ms, PutOut.deleted)
        else some (kvs, { ms with freed := ms.freed ++ [key.id] }, PutOut.val 0)
      else
        putifValue resizing false
          (kvs.set idx { kvs.getD idx default with key := KeyF.ptr key, hash := hash })
          ms idx key val oldval
    | KeyF.sized => some (kvs, ms, PutOut.sized)
    | KeyF.ptr k =>
      if (kvs.getD idx default).hash = 0 then none
      else if (kvs.getD idx default).hash = hash ∧ k.content = key.content then
        putifValue resizing true kvs ms idx key val oldval
      else if resizing = false ∧ reprobeTry + 1 ≥ REPROBE_LIMIT then
        some (kvs, ms, PutOut.limit)
      else
        putifProbe resizing key hash val oldval fuel kvs ms
          ((idx + 1) &&& (kvs.length - 1)) (if resizing then reprobeTry else reprobeTry + 1)

/-- Entry to `_putif` shared by both modes: the asserts (`assert(key)` holds by
construction of `KeyPtr`; `assert(hash)` is the `if hash = 0` guard) and the
initial index computation `idx = hash & (len - 1)`. -/
def _putifGo (resizing : Bool) (fuel : Nat) (kvs : List Entry) (ms : MState)
    (key : KeyPtr) (hash : Nat) (val : Nat) (oldval : OldV) :
    Option (List Entry × MState × PutOut) :=
  if hash = 0 then none
  else putifProbe resizing key hash val oldval fuel kvs ms (hash &&& (kvs.length - 1)) 0

/-- The clamp performed by `hashmap_size`: a (transiently) negative counter
reads as 0. -/
def sizeClamp (ms : MState) : Int :=
  if ms.size < 0 then 0 else ms.size

/-- Public `hashmap_size`. -/
def hashmap_size (m : HM) : Int :=
  sizeClamp m.ms

/-- Helper for `fshift`: peel one binary digit per unit of fuel until the
value fits a 24-bit significand. -/
def fshiftAux : Nat → Nat → Nat
  | 0, _ => 0
  | b + 1, x => if x < 2 ^ 24 then 0 else fshiftAux b (x / 2) + 1

/-- The binary shift that brings `x` into the 24-bit significand range: the
smallest `s` with `x < 2 ^ (24 + s)` (for every `x < 2 ^ 88`, far beyond the
C `int` range that can reach the conversion below). -/
def fshift (x : Nat) : Nat :=
  fshiftAux 64 x

/-- Exact value of the C conversion of a non-negative `int` to `float`:
round the integer to a 24-bit significand, to nearest, ties to even (the
significand of the result, `x / 2 ^ fshift x` possibly incremented, stays
exactly representable even when the increment carries into the next
binade). -/
def fround24 (x : Nat) : Nat :=
  if fshift x = 0 then x
  else if x % 2 ^ fshift x < 2 ^ (fshift x - 1) then x / 2 ^ fshift x * 2 ^ fshift x
  else if 2 ^ (fshift x - 1) < x % 2 ^ fshift x then (x / 2 ^ fshift x + 1) * 2 ^ fshift x
  else if x / 2 ^ fshift x % 2 = 0 then x / 2 ^ fshift x * 2 ^ fshift x
  else (x / 2 ^ fshift x + 1) * 2 ^ fshift x

/-- The compaction condition of `_resize`, from the source:
`map->changes > (len / 4) && size / (float)len < 0.3f`, where
`size = hashmap_size(map)` is the clamped counter.  The float comparison is
carried out exactly: `(float)size` is `fround24 size` (round to nearest,
ties to even); `(float)len` is exact because every reachable table length is
a power of two (`INITIAL_SIZE = 4`, and a resize allocates `len` or
`2 * len`) well inside the `float` range; the single-precision division of a
24-bit significand by a power of two only shifts the exponent and cannot
overflow or underflow for `int`-ranged inputs, so it is exact; and `0.3f` is
exactly `5033165 / 2 ^ 24`.  The comparison
`fround24 size / len < 5033165 / 2 ^ 24` is therefore exactly the integer
comparison below. -/
def sameLenCond (len : Nat) (ms : MState) : Prop :=
  ms.changes > len / 4 ∧
  2 ^ 24 * (fround24 (sizeClamp ms).toNat : Int) < 5033165 * (len : Int)

/-- The capacity rule as the specification words it: compact exactly when
`changes > len / 4` and the exact ratio `size / len` is below `3 / 10`.
Stated from the spec's words, to be compared with `sameLenCond` from the
source; `claim_C6_counterexample` separates the two. -/
def sameLenCondSpec (len : Nat) (ms : MState) : Prop :=
  ms.changes > len / 4 ∧ (sizeClamp ms : ℚ) / (len : ℚ) < 3 / 10

instance sameLenCondDec (len : Nat) (ms : MState) : Decidable (sameLenCond len ms) :=
  inferInstanceAs (Decidable (ms.changes > len / 4 ∧
    2 ^ 24 * (fround24 (sizeClamp ms).toNat : Int) < 5033165 * (len : Int)))

instance sameLenCondSpecDec (len : Nat) (ms : MState) :
    Decidable (sameLenCondSpec len ms) :=
  inferInstanceAs (Decidable (ms.changes > len / 4 ∧
    (sizeClamp ms : ℚ) / (len : ℚ) < 3 / 10))

/-- One slot of `_copy_block`'s migration loop.  Sequentially the value CAS to
SIZED and (for a deleted key) the key CAS to SIZED succeed first try; the old
table is superseded and dropped afterwards, so only its effect on the new
table and on the destructor accounting is kept.  A SIZED key or SIZED value
cannot occur in the table being copied in a sequential execution (SIZED marks
are only ever written into a table by the copy pass itself, which runs once);
on such inputs the source would corrupt the new table, modelled as `none`.
`gethash(e)` spinning on a zero hash is the `hash = 0` guard of `_putifGo`. -/
def copySlot (fuel : Nat) (nkvs : List Entry) (ms : MState) (e : Entry) :
    Option (List Entry × MState) :=
  match e.key with
  | KeyF.free => some (nkvs, ms)
  | KeyF.sized => none
  | KeyF.ptr k =>
    match e.val with
    | ValF.sized => none
    | ValF.user v =>
      match _putifGo true fuel nkvs ms k e.hash v (OldV.user 0) with
      | none => none
      | some (nkvs2, ms2, out) =>
        if out = PutOut.deleted then
          some (nkvs2, { ms2 with freed := ms2.freed ++ [k.id] })
        else some (nkvs2, ms2)

/-- The whole copy pass of `_copy_block` over the old table, slot by slot in
index order (the block decomposition is a work-distribution device for
concurrent helpers; a single thread processes the blocks in order, which is
slot order). -/
def copyKvs (fuel : Nat) : List Entry → List Entry → MState → Option (List Entry × MState)
  | [], nkvs, ms => some (nkvs, ms)
  | e :: rest, nkvs, ms =>
    match copySlot fuel nkvs ms e with
    | none => none
    | some (nkvs2, ms2) => copyKvs fuel rest nkvs2 ms2

/-- Model of `_resize` in a sequential execution, where the caller always wins
the promise CAS (`_nkvs` is null and `_kvs` is `okvs`).  The capacity
decision is `map->changes > (len / 4) && size / (float)len < 0.3f` with
`size = hashmap_size(map)`, embedded exactly as `sameLenCond` (see there for
the float analysis).  The new table is zeroed (`_zero_block`), the old table
is copied into it, the old table is retired (retirement only frees table
headers, never keys, so it does not affect the destructor accounting), the
new table is promoted and `changes` is reset. -/
def _resize (fuel : Nat) (okvs : List Entry) (ms : MState) : Option (List Entry × MState) :=
  let len := okvs.length
  let nkvs : List Entry :=
    if sameLenCond len ms then
      List.replicate len default
    else
      List.replicate (2 * len) default
  match copyKvs fuel okvs nkvs ms with
  | none => none
  | some (nkvs2, ms2) => some (nkvs2, { ms2 with changes := 0 })

/-- `_putif` outside resize-copy mode: the probe-and-update engine, with the
reprobe-limit exit tail-calling `_resize` and returning SIZED, exactly as
`return _resize(map, kvs)` (whose result is always SIZED). -/
def _putif (fuel : Nat) (kvs : List Entry) (ms : MState) (key : KeyPtr) (hash : Nat)
    (val : Nat) (oldval : OldV) : Option (List Entry × MState × PutOut) :=
  match _putifGo false fuel kvs ms key hash val oldval with
  | some (_, _, PutOut.limit) =>
    match _resize fuel kvs ms with
    | none => none
    | some (kvs3, ms3) => some (kvs3, ms3, PutOut.sized)
  | r => r

/-- Conversion of a slot value field to a `_get` result: `getval(e)` returns
the raw value pointer, which may be the SIZED sentinel. -/
def valOut : ValF → PutOut
  | ValF.sized => PutOut.sized
  | ValF.user v => PutOut.val v

/-- The probe loop of `_get`, fueled.  On a key match the slot value is
returned as-is (it may be the SIZED sentinel, propagated to the retry
wrapper).  The counter exit is `++reprobe_try >= len`.  As in `putifProbe`,
`gethash`'s spin on a zero hash is modelled as `none`. -/
def getLoop (c hash : Nat) : Nat → List Entry → Nat → Nat → Option PutOut
  | 0, _, _, _ => none
  | fuel + 1, kvs, idx, reprobeTry =>
    match (kvs.getD idx default).key with
    | KeyF.free => some (PutOut.val 0)
    | KeyF.sized => some PutOut.sized
    | KeyF.ptr k =>
      if (kvs.getD idx default).hash = 0 then none
      else if (kvs.getD idx default).hash = hash ∧ k.content = c then
        some (valOut (kvs.getD idx default).val)
      else if reprobeTry + 1 ≥ kvs.length then some (PutOut.val 0)
      else getLoop c hash fuel kvs ((idx + 1) &&& (kvs.length - 1)) (reprobeTry + 1)

/-- `_get`: initial index computation plus the probe loop. -/
def _get (fuel : Nat) (kvs : List Entry) (c hash : Nat) : Option PutOut :=
  getLoop c hash fuel kvs (hash &&& (kvs.length - 1)) 0

/-- The retry loop of `hashmap_get`.  On a SIZED result the source calls
`_help_resize`: sequentially the current table is still the one that produced
SIZED and `_nkvs` is null, so the helper starts (and completes) a resize
itself, after which the wrapper reloads the table and retries. -/
def getRetry (pf : Nat) (c hash : Nat) : Nat → HM → Option (HM × PutOut)
  | 0, _ => none
  | tries + 1, m =>
    match _get pf m.kvs c hash with
    | none => none
    | some PutOut.sized =>
      match _resize pf m.kvs m.ms with
      | none => none
      | some (kvs2, ms2) => getRetry pf c hash tries ⟨kvs2, ms2⟩
    | some out => some (m, out)

/-- Public `hashmap_get`: clamp the hash, then probe with retries. -/
def hashmap_get (hashFn : Nat → Nat) (fuel : Nat) (m : HM) (c : Nat) : Option (HM × PutOut) :=
  getRetry fuel c (hmHash hashFn c) fuel m

/-- The retry loop of `hashmap_putif`.  On a SIZED result the source calls
`_help_resize(map, kvs)` with the table it read before the call: when the
resize already replaced the table (the reprobe-limit path ran `_resize`
inline) the helper is a no-op; otherwise (sequentially) the helper starts and
completes a resize itself.  Table identity is modelled structurally. -/
def putifLoop (pf : Nat) (key : KeyPtr) (hash : Nat) (val : Nat) (oldval : OldV) :
    Nat → HM → Option (HM × PutOut)
  | 0, _ => none
  | tries + 1, m =>
    match _putif pf m.kvs m.ms key hash val oldval with
    | none => none
    | some (kvs2, ms2, PutOut.sized) =>
      if kvs2 = m.kvs then
        match _resize pf kvs2 ms2 with
        | none => none
        | some (kvs3, ms3) => putifLoop pf key hash val oldval tries ⟨kvs3, ms3⟩
      else putifLoop pf key hash val oldval tries ⟨kvs2, ms2⟩
    | some (kvs2, ms2, out) => some (⟨kvs2, ms2⟩, out)

/-- Public `hashmap_putif`: clamp the hash, then put with retries. -/
def hashmap_putif (hashFn : Nat → Nat) (fuel : Nat) (m : HM) (key : KeyPtr)
    (val : Nat) (oldval : OldV) : Option (HM × PutOut) :=
  putifLoop fuel key (hmHash hashFn key.content) val oldval fuel m

/-- Public `hashmap_new`: a zeroed table of `INITIAL_SIZE` slots, zero size,
zero changes, nothing freed yet. -/
def hashmap_new : HM :=
  ⟨List.replicate INITIAL_SIZE default, ⟨0, 0, []⟩⟩

/-- Public `hashmap_free`, as its effect on the destructor accounting: every
non-null key of the current table is passed to `free_func`, iterating from the
top slot down (`for (int i = kvs->len - 1; i >= 0; i--)`); retired old tables
are freed without touching keys (`free_kvs2`).  The result is the complete
list of key identities ever passed to the destructor over the life of the
map. -/
def hashmap_free (m : HM) : List Nat :=
  m.ms.freed ++ m.kvs.reverse.filterMap (fun e =>
    match e.key with
    | KeyF.ptr k => some k.id
    | _ => none)

/-- A public operation on the map: a lookup or a conditional update (`kid` is
the identity of the fresh key pointer the caller passes in). -/
inductive Op where
  | get (c : Nat)
  | putif (kid c v : Nat) (ov : OldV)
deriving DecidableEq

/-- Run one public operation. -/
def step (hashFn : Nat → Nat) (pf : Nat) (m : HM) : Op → Option HM
  | Op.get c => (hashmap_get hashFn pf m c).map Prod.fst
  | Op.putif kid c v ov => (hashmap_putif hashFn pf m ⟨kid, c⟩ v ov).map Prod.fst

/-- Run a list of public operations from a given state. -/
def runFrom (hashFn : Nat → Nat) (pf : Nat) : HM → List Op → Option HM
  | m, [] => some m
  | m, op :: ops =>
    match step hashFn pf m op with
    | none => none
    | some m2 => runFrom hashFn pf m2 ops

/-- Run a list of public operations on a fresh map. -/
def run (hashFn : Nat → Nat) (pf : Nat) (ops : List Op) : Option HM :=
  runFrom hashFn pf hashmap_new ops

/-- The values passed to the `putif` operations of a history, newest first. -/
def putVals : List Op → List Nat
  | [] => []
  | Op.get _ :: ops => putVals ops
  | Op.putif _ _ v _ :: ops => v :: putVals ops

/-- The linear probe sequence: `probeIdx len idx t` is the slot index reached
after `t` steps of `idx = (idx + 1) & (len - 1)` from `idx`. -/
def probeIdx (len idx : Nat) : Nat → Nat
  | 0 => idx
  | t + 1 => (probeIdx len idx t + 1) &&& (len - 1)

/-- A probing miss: the slot holds a user key with a published hash, and
either the memoized hash or the key content differs from the probe's. -/
def Miss (key : KeyPtr) (hash : Nat) (e : Entry) : Prop :=
  ∃ k, e.key = KeyF.ptr k ∧ e.hash ≠ 0 ∧ ¬(e.hash = hash ∧ k.content = key.content)

instance (key : KeyPtr) (hash : Nat) (e : Entry) : Decidable (Miss key hash e) :=
  match h : e.key with
  | KeyF.ptr k =>
    decidable_of_iff (e.hash ≠ 0 ∧ ¬(e.hash = hash ∧ k.content = key.content))
      (by
        constructor
        · intro hh
          exact ⟨k, h, hh⟩
        · rintro ⟨k2, hk2, hh⟩
          rw [h] at hk2
          cases hk2
          exact hh)
  | KeyF.free => isFalse (by rintro ⟨k, hk, _⟩; rw [h] at hk; cases hk)
  | KeyF.sized => isFalse (by rintro ⟨k, hk, _⟩; rw [h] at hk; cases hk)

/-- A slot holding a user key. -/
def Keyed (e : Entry) : Prop :=
  ∃ k, e.key = KeyF.ptr k

instance (e : Entry) : Decidable (Keyed e) :=
  match h : e.key with
  | KeyF.ptr k => isTrue ⟨k, h⟩
  | KeyF.free => isFalse (by rintro ⟨k, hk⟩; rw [h] at hk; cases hk)
  | KeyF.sized => isFalse (by rintro ⟨k, hk⟩; rw [h] at hk; cases hk)

/-- A probing miss for a lookup with key content `c`: the slot holds a user
key with a published hash, and either the memoized hash or the content
differs. -/
def MissG (c hash : Nat) (e : Entry) : Prop :=
  ∃ k, e.key = KeyF.ptr k ∧ e.hash ≠ 0 ∧ ¬(e.hash = hash ∧ k.content = c)

instance (c hash : Nat) (e : Entry) : Decidable (MissG c hash e) :=
  match h : e.key with
  | KeyF.ptr k =>
    decidable_of_iff (e.hash ≠ 0 ∧ ¬(e.hash = hash ∧ k.content = c))
      (by
        constructor
        · intro hh
          exact ⟨k, h, hh⟩
        · rintro ⟨k2, hk2, hh⟩
          rw [h] at hk2
          cases hk2
          exact hh)
  | KeyF.free => isFalse (by rintro ⟨k, hk, _⟩; rw [h] at hk; cases hk)
  | KeyF.sized => isFalse (by rintro ⟨k, hk, _⟩; rw [h] at hk; cases hk)

theorem miss_iff_missG (key : KeyPtr) (hash : Nat) (e : Entry) :
    Miss key hash e ↔ MissG key.content hash e :=
  Iff.rfl

theorem probeIdx_succ (len idx t : Nat) :
    probeIdx len idx (t + 1) = (probeIdx len idx t + 1) &&& (len - 1) :=
  rfl

theorem probeIdx_shift (len idx : Nat) :
    ∀ t, probeIdx len ((idx + 1) &&& (len - 1)) t = probeIdx len idx (t + 1) := by
  intro t
  induction t with
  | zero => rfl
  | succ t ih =>
    show (probeIdx len ((idx + 1) &&& (len - 1)) t + 1) &&& (len - 1) =
      (probeIdx len idx (t + 1) + 1) &&& (len - 1)
    rw [ih]

theorem putifValue_out (resizing mustfreekey : Bool) (kvs : List Entry) (ms : MState)
    (idx : Nat) (key : KeyPtr) (val : Nat) (oldval : OldV) (kvs2 : List Entry)
    (ms2 : MState) (out : PutOut)
    (h : putifValue resizing mustfreekey kvs ms idx key val oldval = some (kvs2, ms2, out)) :
    out = PutOut.sized ∨ ∃ v, out = PutOut.val v := by
  rcases hv : (kvs.getD idx default).val with _ | v
  · simp only [putifValue, hv] at h
    cases h
    left
    rfl
  · simp only [putifValue, hv] at h
    split at h
    · split at h
      · cases h
      · cases h
        right
        exact ⟨_, rfl⟩
    · cases h
      right
      exact ⟨_, rfl⟩

theorem putifProbe_one_step (resizing : Bool) (key : KeyPtr) (hash val : Nat) (oldval : OldV)
    (fuel : Nat) (kvs : List Entry) (ms : MState) (idx rt : Nat) (k : KeyPtr)
    (hk : (kvs.getD idx default).key = KeyF.ptr k)
    (hh : (kvs.getD idx default).hash ≠ 0)
    (hnm : ¬((kvs.getD idx default).hash = hash ∧ k.content = key.content))
    (hlim : ¬(resizing = false ∧ rt + 1 ≥ REPROBE_LIMIT)) :
    putifProbe resizing key hash val oldval (fuel + 1) kvs ms idx rt =
      putifProbe resizing key hash val oldval fuel kvs ms ((idx + 1) &&& (kvs.length - 1))
        (if resizing then rt else rt + 1) := by
  simp only [putifProbe, hk, hh, hnm, hlim]
  simp

theorem putifProbe_out (resizing : Bool) (key : KeyPtr) (hash val : Nat) (oldval : OldV) :
    ∀ (fuel : Nat) (kvs : List Entry) (ms : MState) (idx rt : Nat)
      (kvs2 : List Entry) (ms2 : MState) (out : PutOut),
      putifProbe resizing key hash val oldval fuel kvs ms idx rt = some (kvs2, ms2, out) →
      (out = PutOut.limit → resizing = false) ∧ (out = PutOut.deleted → resizing = true) := by
  intro fuel
  induction fuel with
  | zero =>
    intro kvs ms idx rt kvs2 ms2 out h
    cases h
  | succ fuel ih =>
    intro kvs ms idx rt kvs2 ms2 out h
    rcases hk : (kvs.getD idx default).key with _ | _ | k
    · simp only [putifProbe, hk] at h
      split at h
      · split at h
        · cases h
          constructor
          · intro hl
            cases hl
          · intro _
            assumption
        · cases h
          constructor
          · intro hl
            cases hl
          · intro hd
            cases hd
      · rcases putifValue_out _ _ _ _ _ _ _ _ _ _ _ h with h1 | ⟨v, h1⟩ <;>
          subst h1 <;> exact ⟨fun hl => (nomatch hl), fun hd => (nomatch hd)⟩
    · simp only [putifProbe, hk] at h
      cases h
      exact ⟨fun hl => (nomatch hl), fun hd => (nomatch hd)⟩
    · simp only [putifProbe, hk] at h
      split at h
      · cases h
      · split at h
        · rcases putifValue_out _ _ _ _ _ _ _ _ _ _ _ h with h1 | ⟨v, h1⟩ <;>
            subst h1 <;> exact ⟨fun hl => (nomatch hl), fun hd => (nomatch hd)⟩
        · split at h
          · cases h
            rename_i hcond
            exact ⟨fun _ => hcond.1, fun hd => (nomatch hd)⟩
          · exact ih _ _ _ _ _ _ _ h

theorem putifProbe_true_ne_limit (key : KeyPtr) (hash val : Nat) (oldval : OldV)
    (fuel : Nat) (kvs : List Entry) (ms : MState) (idx rt : Nat)
    (kvs2 : List Entry) (ms2 : MState) (out : PutOut)
    (h : putifProbe true key hash val oldval fuel kvs ms idx rt = some (kvs2, ms2, out)) :
    out ≠ PutOut.limit := by
  intro ho
  have := (putifProbe_out true key hash val oldval fuel kvs ms idx rt kvs2 ms2 out h).1 ho
  cases this

theorem putifProbe_false_ne_deleted (key : KeyPtr) (hash val : Nat) (oldval : OldV)
    (fuel : Nat) (kvs : List Entry) (ms : MState) (idx rt : Nat)
    (kvs2 : List Entry) (ms2 : MState) (out : PutOut)
    (h : putifProbe false key hash val oldval fuel kvs ms idx rt = some (kvs2, ms2, out)) :
    out ≠ PutOut.deleted := by
  intro ho
  have := (putifProbe_out false key hash val oldval fuel kvs ms idx rt kvs2 ms2 out h).2 ho
  cases this

theorem putifProbe_limit_of_miss (key : KeyPtr) (hash val : Nat) (oldval : OldV)
    (kvs : List Entry) (ms : MState) :
    ∀ n, 0 < n → ∀ j idx fuel, j + n = REPROBE_LIMIT → n ≤ fuel →
    (∀ t < n, Miss key hash (kvs.getD (probeIdx kvs.length idx t) default)) →
    putifProbe false key hash val oldval fuel kvs ms idx j = some (kvs, ms, PutOut.limit) := by
  intro n
  induction n with
  | zero => omega
  | succ n ih =>
    intro _ j idx fuel hj hfuel hmiss
    obtain ⟨f, rfl⟩ : ∃ f, fuel = f + 1 := ⟨fuel - 1, by omega⟩
    obtain ⟨k, hk, hh, hnm⟩ := hmiss 0 (by omega)
    simp only [probeIdx] at hk hh hnm
    rcases Nat.eq_zero_or_pos n with hn | hn
    · subst hn
      simp only [putifProbe, hk]
      rw [if_neg hh, if_neg hnm, if_pos ⟨by trivial, by omega⟩]
    · rw [putifProbe_one_step false key hash val oldval f kvs ms idx j k hk hh hnm
        (by simp; omega)]
      simp only [Bool.false_eq_true, if_false]
      refine ih hn (j + 1) ((idx + 1) &&& (kvs.length - 1)) f (by omega) (by omega) ?_
      intro t ht
      rw [probeIdx_shift]
      exact hmiss (t + 1) (by omega)

theorem putifProbe_free_reach (resizing : Bool) (key : KeyPtr) (hash val : Nat)
    (oldval : OldV) (kvs : List Entry) (ms : MState) :
    ∀ n j idx fuel, n < fuel →
    (resizing = false → j + n + 1 ≤ REPROBE_LIMIT) →
    (∀ t < n, Miss key hash (kvs.getD (probeIdx kvs.length idx t) default)) →
    (kvs.getD (probeIdx kvs.length idx n) default).key = KeyF.free →
    putifProbe resizing key hash val oldval fuel kvs ms idx j =
      (if val = 0 ∧ (oldval = OldV.ignore ∨ oldval = OldV.user 0) then
        if resizing then some (kvs, ms, PutOut.deleted)
        else some (kvs, { ms with freed := ms.freed ++ [key.id] }, PutOut.val 0)
      else
        putifValue resizing false
          (kvs.set (probeIdx kvs.length idx n)
            { kvs.getD (probeIdx kvs.length idx n) default with
                key := KeyF.ptr key, hash := hash })
          ms (probeIdx kvs.length idx n) key val oldval) := by
  intro n
  induction n with
  | zero =>
    intro j idx fuel hfuel _ _ hfree
    obtain ⟨f, rfl⟩ : ∃ f, fuel = f + 1 := ⟨fuel - 1, by omega⟩
    simp only [probeIdx] at hfree ⊢
    simp only [putifProbe, hfree]
  | succ n ih =>
    intro j idx fuel hfuel hlim hmiss hfree
    obtain ⟨f, rfl⟩ : ∃ f, fuel = f + 1 := ⟨fuel - 1, by omega⟩
    obtain ⟨k, hk, hh, hnm⟩ := hmiss 0 (by omega)
    simp only [probeIdx] at hk hh hnm
    rw [putifProbe_one_step resizing key hash val oldval f kvs ms idx j k hk hh hnm
      (by rintro ⟨hr, hge⟩; have := hlim hr; omega)]
    have hnext :
        putifProbe resizing key hash val oldval f kvs ms ((idx + 1) &&& (kvs.length - 1))
          (if resizing then j else j + 1) =
        (if val = 0 ∧ (oldval = OldV.ignore ∨ oldval = OldV.user 0) then
          if resizing then some (kvs, ms, PutOut.deleted)
          else some (kvs, { ms with freed := ms.freed ++ [key.id] }, PutOut.val 0)
        else
          putifValue resizing false
            (kvs.set (probeIdx kvs.length ((idx + 1) &&& (kvs.length - 1)) n)
              { kvs.getD (probeIdx kvs.length ((idx + 1) &&& (kvs.length - 1)) n) default with
                  key := KeyF.ptr key, hash := hash })
            ms (probeIdx kvs.length ((idx + 1) &&& (kvs.length - 1)) n) key val oldval) := by
      refine ih (if resizing then j else j + 1) ((idx + 1) &&& (kvs.length - 1)) f
        (by omega) ?_ ?_ ?_
      · intro hr
        subst hr
        simp only [Bool.false_eq_true, if_false]
        have := hlim rfl
        omega
      · intro t ht
        rw [probeIdx_shift]
        exact hmiss (t + 1) (by omega)
      · rw [probeIdx_shift]
        exact hfree
    rw [hnext, probeIdx_shift]

theorem putifProbe_match_reach (resizing : Bool) (key : KeyPtr) (hash val : Nat)
    (oldval : OldV) (kvs : List Entry) (ms : MState) (k : KeyPtr) :
    ∀ n j idx fuel, n < fuel →
    (resizing = false → j + n + 1 ≤ REPROBE_LIMIT) →
    (∀ t < n, Miss key hash (kvs.getD (probeIdx kvs.length idx t) default)) →
    (kvs.getD (probeIdx kvs.length idx n) default).key = KeyF.ptr k →
    (kvs.getD (probeIdx kvs.length idx n) default).hash = hash →
    hash ≠ 0 →
    k.content = key.content →
    putifProbe resizing key hash val oldval fuel kvs ms idx j =
      putifValue resizing true kvs ms (probeIdx kvs.length idx n) key val oldval := by
  intro n
  induction n with
  | zero =>
    intro j idx fuel hfuel _ _ hk hh hh0 hc
    obtain ⟨f, rfl⟩ : ∃ f, fuel = f + 1 := ⟨fuel - 1, by omega⟩
    simp only [probeIdx] at hk hh ⊢
    simp only [putifProbe, hk]
    rw [hh, if_neg hh0, if_pos ⟨rfl, hc⟩]
  | succ n ih =>
    intro j idx fuel hfuel hlim hmiss hk hh hh0 hc
    obtain ⟨f, rfl⟩ : ∃ f, fuel = f + 1 := ⟨fuel - 1, by omega⟩
    obtain ⟨k0, hk0, hh0m, hnm⟩ := hmiss 0 (by omega)
    simp only [probeIdx] at hk0 hh0m hnm
    rw [putifProbe_one_step resizing key hash val oldval f kvs ms idx j k0 hk0 hh0m hnm
      (by rintro ⟨hr, hge⟩; have := hlim hr; omega)]
    have hnext := ih (if resizing then j else j + 1) ((idx + 1) &&& (kvs.length - 1)) f
      (by omega)
      (by
        intro hr
        subst hr
        simp only [Bool.false_eq_true, if_false]
        have := hlim rfl
        omega)
      (by
        intro t ht
        rw [probeIdx_shift]
        exact hmiss (t + 1) (by omega))
      (by rw [probeIdx_shift]; exact hk)
      (by rw [probeIdx_shift]; exact hh)
      hh0 hc
    rw [hnext, probeIdx_shift]

theorem getLoop_one_step (c hash fuel : Nat) (kvs : List Entry) (idx rt : Nat) (k : KeyPtr)
    (hk : (kvs.getD idx default).key = KeyF.ptr k)
    (hh : (kvs.getD idx default).hash ≠ 0)
    (hnm : ¬((kvs.getD idx default).hash = hash ∧ k.content = c))
    (hcnt : rt + 1 < kvs.length) :
    getLoop c hash (fuel + 1) kvs idx rt =
      getLoop c hash fuel kvs ((idx + 1) &&& (kvs.length - 1)) (rt + 1) := by
  have hge : ¬(rt + 1 ≥ kvs.length) := by omega
  simp only [getLoop, hk, hh, hnm, hge]
  simp

theorem getLoop_match_reach (c hash : Nat) (kvs : List Entry) (k : KeyPtr) :
    ∀ n j idx fuel, n < fuel → j + n + 1 ≤ kvs.length →
    (∀ t < n, MissG c hash (kvs.getD (probeIdx kvs.length idx t) default)) →
    (kvs.getD (probeIdx kvs.length idx n) default).key = KeyF.ptr k →
    (kvs.getD (probeIdx kvs.length idx n) default).hash = hash →
    hash ≠ 0 →
    k.content = c →
    getLoop c hash fuel kvs idx j =
      some (valOut (kvs.getD (probeIdx kvs.length idx n) default).val) := by
  intro n
  induction n with
  | zero =>
    intro j idx fuel hfuel _ _ hk hh hh0 hc
    obtain ⟨f, rfl⟩ : ∃ f, fuel = f + 1 := ⟨fuel - 1, by omega⟩
    simp only [probeIdx] at hk hh ⊢
    simp only [getLoop, hk]
    rw [hh, if_neg hh0, if_pos ⟨rfl, hc⟩]
  | succ n ih =>
    intro j idx fuel hfuel hcnt hmiss hk hh hh0 hc
    obtain ⟨f, rfl⟩ : ∃ f, fuel = f + 1 := ⟨fuel - 1, by omega⟩
    obtain ⟨k0, hk0, hh0m, hnm⟩ := hmiss 0 (by omega)
    simp only [probeIdx] at hk0 hh0m hnm
    rw [getLoop_one_step c hash f kvs idx j k0 hk0 hh0m hnm (by omega)]
    have hnext := ih (j + 1) ((idx + 1) &&& (kvs.length - 1)) f (by omega) (by omega)
      (by
        intro t ht
        rw [probeIdx_shift]
        exact hmiss (t + 1) (by omega))
      (by rw [probeIdx_shift]; exact hk)
      (by rw [probeIdx_shift]; exact hh)
      hh0 hc
    rw [hnext, probeIdx_shift]

theorem getLoop_free_reach (c hash : Nat) (kvs : List Entry) :
    ∀ n j idx fuel, n < fuel → j + n + 1 ≤ kvs.length →
    (∀ t < n, MissG c hash (kvs.getD (probeIdx kvs.length idx t) default)) →
    (kvs.getD (probeIdx kvs.length idx n) default).key = KeyF.free →
    getLoop c hash fuel kvs idx j = some (PutOut.val 0) := by
  intro n
  induction n with
  | zero =>
    intro j idx fuel hfuel _ _ hfree
    obtain ⟨f, rfl⟩ : ∃ f, fuel = f + 1 := ⟨fuel - 1, by omega⟩
    simp only [probeIdx] at hfree
    simp only [getLoop, hfree]
  | succ n ih =>
    intro j idx fuel hfuel hcnt hmiss hfree
    obtain ⟨f, rfl⟩ : ∃ f, fuel = f + 1 := ⟨fuel - 1, by omega⟩
    obtain ⟨k0, hk0, hh0m, hnm⟩ := hmiss 0 (by omega)
    simp only [probeIdx] at hk0 hh0m hnm
    rw [getLoop_one_step c hash f kvs idx j k0 hk0 hh0m hnm (by omega)]
    refine ih (j + 1) ((idx + 1) &&& (kvs.length - 1)) f (by omega) (by omega) ?_ ?_
    · intro t ht
      rw [probeIdx_shift]
      exact hmiss (t + 1) (by omega)
    · rw [probeIdx_shift]
      exact hfree

theorem getLoop_circle (c hash : Nat) (kvs : List Entry) :
    ∀ n, 0 < n → ∀ j idx fuel, j + n = kvs.length → n ≤ fuel →
    (∀ t < n, MissG c hash (kvs.getD (probeIdx kvs.length idx t) default)) →
    getLoop c hash fuel kvs idx j = some (PutOut.val 0) := by
  intro n
  induction n with
  | zero => omega
  | succ n ih =>
    intro _ j idx fuel hj hfuel hmiss
    obtain ⟨f, rfl⟩ : ∃ f, fuel = f + 1 := ⟨fuel - 1, by omega⟩
    obtain ⟨k, hk, hh, hnm⟩ := hmiss 0 (by omega)
    simp only [probeIdx] at hk hh hnm
    rcases Nat.eq_zero_or_pos n with hn | hn
    · subst hn
      simp only [getLoop, hk]
      rw [if_neg hh, if_neg hnm, if_pos (by omega)]
    · rw [getLoop_one_step c hash f kvs idx j k hk hh hnm (by omega)]
      refine ih hn (j + 1) ((idx + 1) &&& (kvs.length - 1)) f (by omega) (by omega) ?_
      intro t ht
      rw [probeIdx_shift]
      exact hmiss (t + 1) (by omega)

theorem getD_set_self (l : List Entry) (i : Nat) (e : Entry) (h : i < l.length) :
    (l.set i e).getD i default = e := by
  rw [List.getD_eq_getElem?_getD, List.getElem?_set_self]
  · rfl
  · exact h

theorem getD_set_other (l : List Entry) (i j : Nat) (e : Entry) (h : i ≠ j) :
    (l.set i e).getD j default = l.getD j default := by
  rw [List.getD_eq_getElem?_getD, List.getElem?_set_ne h, List.getD_eq_getElem?_getD]

theorem probeIdx_lt (len start : Nat) (hlen : 0 < len) (hstart : start < len) :
    ∀ t, probeIdx len start t < len := by
  intro t
  cases t with
  | zero => exact hstart
  | succ t =>
    have : (probeIdx len start t + 1) &&& (len - 1) ≤ len - 1 := Nat.and_le_right
    simp only [probeIdx]
    omega

theorem and_sub_one_lt (hash len : Nat) (hlen : 0 < len) : hash &&& (len - 1) < len := by
  have : hash &&& (len - 1) ≤ len - 1 := Nat.and_le_right
  omega

/-- C7: a `putif` call outside resize-copy mode whose probe performs
`REPROBE_LIMIT` (17) reprobes without finding a free, matching, or SIZED slot
invokes the resize coordinator and returns SIZED; in resize-copy mode the
reprobe limit is never applied (the probe loop of `putifProbe` with
`resizing = true` can never produce the reprobe-limit exit). -/
theorem claim_C7 (key : KeyPtr) (hash val : Nat) (oldval : OldV) (kvs : List Entry)
    (ms : MState) (fuel : Nat) (hfuel : REPROBE_LIMIT ≤ fuel) (hh : hash ≠ 0)
    (hmiss : ∀ t < REPROBE_LIMIT, Miss key hash
      (kvs.getD (probeIdx kvs.length (hash &&& (kvs.length - 1)) t) default)) :
    _putif fuel kvs ms key hash val oldval =
      (_resize fuel kvs ms).map (fun p => (p.1, p.2, PutOut.sized)) ∧
    ∀ (fuel2 : Nat) (kvs2 : List Entry) (ms2 : MState) (idx2 rt2 : Nat)
      (kvs3 : List Entry) (ms3 : MState) (out : PutOut),
      putifProbe true key hash val oldval fuel2 kvs2 ms2 idx2 rt2 = some (kvs3, ms3, out) →
      out ≠ PutOut.limit := by
  constructor
  · have hlim := putifProbe_limit_of_miss key hash val oldval kvs ms REPROBE_LIMIT
      (by decide) 0 (hash &&& (kvs.length - 1)) fuel (Nat.zero_add _) hfuel hmiss
    unfold _putif _putifGo
    rw [if_neg hh, hlim]
    cases hres : _resize fuel kvs ms with
    | none => rfl
    | some p =>
      cases p
      rfl
  · intro fuel2 kvs2 ms2 idx2 rt2 kvs3 ms3 out h
    exact putifProbe_true_ne_limit key hash val oldval fuel2 kvs2 ms2 idx2 rt2 kvs3 ms3 out h

theorem claim_C7_witness :
    ((REPROBE_LIMIT ≤ 17 ∧ (1 : Nat) ≠ 0 ∧
      ∀ t < REPROBE_LIMIT, Miss ⟨1, 1⟩ 1
        (([⟨KeyF.ptr ⟨9, 100⟩, 5, ValF.user 3⟩, ⟨KeyF.ptr ⟨8, 101⟩, 5, ValF.user 3⟩,
           ⟨KeyF.ptr ⟨7, 102⟩, 5, ValF.user 3⟩, ⟨KeyF.ptr ⟨6, 103⟩, 5, ValF.user 3⟩] :
           List Entry).getD (probeIdx 4 (1 &&& 3) t) default)) ∧
      _putif 17 [⟨KeyF.ptr ⟨9, 100⟩, 5, ValF.user 3⟩, ⟨KeyF.ptr ⟨8, 101⟩, 5, ValF.user 3⟩,
          ⟨KeyF.ptr ⟨7, 102⟩, 5, ValF.user 3⟩, ⟨KeyF.ptr ⟨6, 103⟩, 5, ValF.user 3⟩]
          ⟨2, 0, []⟩ ⟨1, 1⟩ 1 55 OldV.ignore =
        (_resize 17 [⟨KeyF.ptr ⟨9, 100⟩, 5, ValF.user 3⟩, ⟨KeyF.ptr ⟨8, 101⟩, 5, ValF.user 3⟩,
            ⟨KeyF.ptr ⟨7, 102⟩, 5, ValF.user 3⟩, ⟨KeyF.ptr ⟨6, 103⟩, 5, ValF.user 3⟩]
            ⟨2, 0, []⟩).map (fun p => (p.1, p.2, PutOut.sized))) := by
  refine ⟨⟨by decide, by decide, by decide⟩, ?_⟩
  exact (claim_C7 ⟨1, 1⟩ 1 55 OldV.ignore
    [⟨KeyF.ptr ⟨9, 100⟩, 5, ValF.user 3⟩, ⟨KeyF.ptr ⟨8, 101⟩, 5, ValF.user 3⟩,
     ⟨KeyF.ptr ⟨7, 102⟩, 5, ValF.user 3⟩, ⟨KeyF.ptr ⟨6, 103⟩, 5, ValF.user 3⟩]
    ⟨2, 0, []⟩ 17 (by decide) (by decide) (by decide)).1

/-- C8: a lookup whose probe chain never meets a free, SIZED, or matching slot
terminates and returns 0 after probing at most `len` slots, advancing with
`idx = (idx + 1) & (len - 1)`: running the probe loop of `_get` with exactly
`len` fuel (one unit per probed slot) already produces the result 0. -/
theorem claim_C8 (c hash : Nat) (kvs : List Entry) (hlen : 0 < kvs.length)
    (hmiss : ∀ t < kvs.length, MissG c hash
      (kvs.getD (probeIdx kvs.length (hash &&& (kvs.length - 1)) t) default)) :
    _get kvs.length kvs c hash = some (PutOut.val 0) := by
  unfold _get
  exact getLoop_circle c hash kvs kvs.length hlen 0 (hash &&& (kvs.length - 1))
    kvs.length (Nat.zero_add _) (Nat.le_refl _) hmiss

theorem claim_C8_witness :
    ((0 : Nat) < 4 ∧
      (∀ t < 4, MissG 1 1
        (([⟨KeyF.ptr ⟨9, 100⟩, 5, ValF.user 3⟩, ⟨KeyF.ptr ⟨8, 101⟩, 5, ValF.user 3⟩,
           ⟨KeyF.ptr ⟨7, 102⟩, 5, ValF.user 3⟩, ⟨KeyF.ptr ⟨6, 103⟩, 5, ValF.user 3⟩] :
           List Entry).getD (probeIdx 4 (1 &&& 3) t) default))) ∧
      _get 4 [⟨KeyF.ptr ⟨9, 100⟩, 5, ValF.user 3⟩, ⟨KeyF.ptr ⟨8, 101⟩, 5, ValF.user 3⟩,
          ⟨KeyF.ptr ⟨7, 102⟩, 5, ValF.user 3⟩, ⟨KeyF.ptr ⟨6, 103⟩, 5, ValF.user 3⟩] 1 1 =
        some (PutOut.val 0) := by
  refine ⟨⟨by decide, by decide⟩, ?_⟩
  exact claim_C8 1 1
    [⟨KeyF.ptr ⟨9, 100⟩, 5, ValF.user 3⟩, ⟨KeyF.ptr ⟨8, 101⟩, 5, ValF.user 3⟩,
     ⟨KeyF.ptr ⟨7, 102⟩, 5, ValF.user 3⟩, ⟨KeyF.ptr ⟨6, 103⟩, 5, ValF.user 3⟩]
    (by decide) (by decide)

/-- C9: a delete (`val = 0`) with `oldval` either IGNORE or null whose probe
reaches a free slot (after misses only) frees the caller's key via the
destructor and returns 0 without modifying the table, when outside
resize-copy mode; in resize-copy mode the same situation returns DELETED
(and changes nothing). -/
theorem claim_C9 (key : KeyPtr) (hash : Nat) (oldval : OldV) (kvs : List Entry)
    (ms : MState) (n fuel : Nat) (hh : hash ≠ 0) (hfuel : n < fuel)
    (hn : n + 1 ≤ REPROBE_LIMIT)
    (hov : oldval = OldV.ignore ∨ oldval = OldV.user 0)
    (hmiss : ∀ t < n, Miss key hash
      (kvs.getD (probeIdx kvs.length (hash &&& (kvs.length - 1)) t) default))
    (hfree : (kvs.getD (probeIdx kvs.length (hash &&& (kvs.length - 1)) n) default).key =
      KeyF.free) :
    _putif fuel kvs ms key hash 0 oldval =
      some (kvs, { ms with freed := ms.freed ++ [key.id] }, PutOut.val 0) ∧
    _putifGo true fuel kvs ms key hash 0 oldval = some (kvs, ms, PutOut.deleted) := by
  constructor
  · unfold _putif _putifGo
    rw [if_neg hh,
      putifProbe_free_reach false key hash 0 oldval kvs ms n 0
        (hash &&& (kvs.length - 1)) fuel hfuel (fun _ => by omega) hmiss hfree,
      if_pos ⟨rfl, hov⟩]
    rfl
  · unfold _putifGo
    rw [if_neg hh,
      putifProbe_free_reach true key hash 0 oldval kvs ms n 0
        (hash &&& (kvs.length - 1)) fuel hfuel (fun h => by cases h) hmiss hfree,
      if_pos ⟨rfl, hov⟩]
    rfl

theorem claim_C9_witness :
    ((1 : Nat) ≠ 0 ∧ (1 : Nat) < 2 ∧ 1 + 1 ≤ REPROBE_LIMIT ∧
      ((OldV.ignore : OldV) = OldV.ignore ∨ (OldV.ignore : OldV) = OldV.user 0) ∧
      (∀ t < 1, Miss ⟨4, 1⟩ 1
        (([⟨KeyF.free, 0, ValF.user 0⟩, ⟨KeyF.ptr ⟨9, 100⟩, 5, ValF.user 3⟩,
           ⟨KeyF.free, 0, ValF.user 0⟩, ⟨KeyF.free, 0, ValF.user 0⟩] :
           List Entry).getD (probeIdx 4 (1 &&& 3) t) default)) ∧
      (([⟨KeyF.free, 0, ValF.user 0⟩, ⟨KeyF.ptr ⟨9, 100⟩, 5, ValF.user 3⟩,
         ⟨KeyF.free, 0, ValF.user 0⟩, ⟨KeyF.free, 0, ValF.user 0⟩] :
         List Entry).getD (probeIdx 4 (1 &&& 3) 1) default).key = KeyF.free) ∧
    (_putif 2 [⟨KeyF.free, 0, ValF.user 0⟩, ⟨KeyF.ptr ⟨9, 100⟩, 5, ValF.user 3⟩,
        ⟨KeyF.free, 0, ValF.user 0⟩, ⟨KeyF.free, 0, ValF.user 0⟩]
        ⟨1, 0, [7]⟩ ⟨4, 1⟩ 1 0 OldV.ignore =
      some ([⟨KeyF.free, 0, ValF.user 0⟩, ⟨KeyF.ptr ⟨9, 100⟩, 5, ValF.user 3⟩,
        ⟨KeyF.free, 0, ValF.user 0⟩, ⟨KeyF.free, 0, ValF.user 0⟩],
        ⟨1, 0, [7, 4]⟩, PutOut.val 0) ∧
      _putifGo true 2 [⟨KeyF.free, 0, ValF.user 0⟩, ⟨KeyF.ptr ⟨9, 100⟩, 5, ValF.user 3⟩,
        ⟨KeyF.free, 0, ValF.user 0⟩, ⟨KeyF.free, 0, ValF.user 0⟩]
        ⟨1, 0, [7]⟩ ⟨4, 1⟩ 1 0 OldV.ignore =
      some ([⟨KeyF.free, 0, ValF.user 0⟩, ⟨KeyF.ptr ⟨9, 100⟩, 5, ValF.user 3⟩,
        ⟨KeyF.free, 0, ValF.user 0⟩, ⟨KeyF.free, 0, ValF.user 0⟩],
        ⟨1, 0, [7]⟩, PutOut.deleted)) := by
  refine ⟨⟨by decide, by decide, by decide, by decide, by decide, by decide⟩, ?_⟩
  exact claim_C9 ⟨4, 1⟩ 1 OldV.ignore
    [⟨KeyF.free, 0, ValF.user 0⟩, ⟨KeyF.ptr ⟨9, 100⟩, 5, ValF.user 3⟩,
     ⟨KeyF.free, 0, ValF.user 0⟩, ⟨KeyF.free, 0, ValF.user 0⟩]
    ⟨1, 0, [7]⟩ 1 2 (by decide) (by decide) (by decide) (by decide) (by decide) (by decide)

/-- C10: a conditional update with a non-null value and a non-IGNORE, non-null
`oldval` constraint, probing a table in which the key is absent (the probe
meets only misses and then a free slot, whose value field is null), claims
the free slot and writes the key and hash into it before failing: it returns
0, the map-level state (size, changes, destructor accounting) is unchanged,
and a lookup for the key on the resulting table still returns 0 — but the
table has absorbed the caller's key as a tombstone slot. -/
theorem claim_C10 (key : KeyPtr) (hash v w : Nat) (kvs : List Entry) (ms : MState)
    (n fuel : Nat) (hh : hash ≠ 0) (hv : v ≠ 0) (hw : w ≠ 0) (hfuel : n < fuel)
    (hn17 : n + 1 ≤ REPROBE_LIMIT) (hnlen : n + 1 ≤ kvs.length)
    (hmiss : ∀ t < n, Miss key hash
      (kvs.getD (probeIdx kvs.length (hash &&& (kvs.length - 1)) t) default))
    (hfree : (kvs.getD (probeIdx kvs.length (hash &&& (kvs.length - 1)) n) default).key =
      KeyF.free)
    (hval0 : (kvs.getD (probeIdx kvs.length (hash &&& (kvs.length - 1)) n) default).val =
      ValF.user 0) :
    _putif fuel kvs ms key hash v (OldV.user w) =
      some (kvs.set (probeIdx kvs.length (hash &&& (kvs.length - 1)) n)
        ⟨KeyF.ptr key, hash, ValF.user 0⟩, ms, PutOut.val 0) ∧
    _get (n + 1)
      (kvs.set (probeIdx kvs.length (hash &&& (kvs.length - 1)) n)
        ⟨KeyF.ptr key, hash, ValF.user 0⟩) key.content hash = some (PutOut.val 0) := by
  have hlen : 0 < kvs.length := by omega
  have hilt : probeIdx kvs.length (hash &&& (kvs.length - 1)) n < kvs.length :=
    probeIdx_lt kvs.length (hash &&& (kvs.length - 1)) hlen
      (and_sub_one_lt hash kvs.length hlen) n
  have he : ({ kvs.getD (probeIdx kvs.length (hash &&& (kvs.length - 1)) n) default with
      key := KeyF.ptr key, hash := hash } : Entry) = ⟨KeyF.ptr key, hash, ValF.user 0⟩ := by
    rw [← hval0]
  have hgd : ((kvs.set (probeIdx kvs.length (hash &&& (kvs.length - 1)) n)
      (⟨KeyF.ptr key, hash, ValF.user 0⟩ : Entry)).getD
        (probeIdx kvs.length (hash &&& (kvs.length - 1)) n) default) =
      ⟨KeyF.ptr key, hash, ValF.user 0⟩ :=
    getD_set_self kvs _ _ hilt
  have hne2 : OldV.user w ≠ OldV.user 0 := by
    intro hq
    injection hq with hq2
    exact hw hq2
  constructor
  · unfold _putif _putifGo
    rw [if_neg hh,
      putifProbe_free_reach false key hash v (OldV.user w) kvs ms n 0
        (hash &&& (kvs.length - 1)) fuel hfuel (fun _ => by omega) hmiss hfree,
      if_neg (by rintro ⟨h0, _⟩; exact hv h0), he]
    simp only [putifValue, hgd]
    rw [if_pos ⟨fun hq => (nomatch hq), hne2⟩]
    rfl
  · unfold _get
    have hstart : hash &&& ((kvs.set (probeIdx kvs.length (hash &&& (kvs.length - 1)) n)
        (⟨KeyF.ptr key, hash, ValF.user 0⟩ : Entry)).length - 1) =
        hash &&& (kvs.length - 1) := by
      rw [List.length_set]
    rw [hstart]
    have hres := getLoop_match_reach key.content hash
      (kvs.set (probeIdx kvs.length (hash &&& (kvs.length - 1)) n)
        ⟨KeyF.ptr key, hash, ValF.user 0⟩) key n 0 (hash &&& (kvs.length - 1)) (n + 1)
      (by omega)
      (by rw [List.length_set]; omega)
      (by
        intro t ht
        rw [List.length_set]
        have hnei : probeIdx kvs.length (hash &&& (kvs.length - 1)) n ≠
            probeIdx kvs.length (hash &&& (kvs.length - 1)) t := by
          intro heq
          obtain ⟨kt, hkt, _⟩ := hmiss t ht
          rw [← heq, hfree] at hkt
          cases hkt
        rw [getD_set_other _ _ _ _ hnei]
        exact (miss_iff_missG key hash _).mp (hmiss t ht))
      (by rw [List.length_set, hgd])
      (by rw [List.length_set, hgd])
      hh rfl
    rw [List.length_set] at hres
    rw [hres, hgd]
    rfl

theorem claim_C10_witness :
    ((1 : Nat) ≠ 0 ∧ (7 : Nat) ≠ 0 ∧ (3 : Nat) ≠ 0 ∧ (1 : Nat) < 2 ∧
      1 + 1 ≤ REPROBE_LIMIT ∧ 1 + 1 ≤ 4 ∧
      (∀ t < 1, Miss ⟨4, 1⟩ 1
        (([⟨KeyF.free, 0, ValF.user 0⟩, ⟨KeyF.ptr ⟨9, 100⟩, 5, ValF.user 3⟩,
           ⟨KeyF.free, 0, ValF.user 0⟩, ⟨KeyF.free, 0, ValF.user 0⟩] :
           List Entry).getD (probeIdx 4 (1 &&& 3) t) default)) ∧
      (([⟨KeyF.free, 0, ValF.user 0⟩, ⟨KeyF.ptr ⟨9, 100⟩, 5, ValF.user 3⟩,
         ⟨KeyF.free, 0, ValF.user 0⟩, ⟨KeyF.free, 0, ValF.user 0⟩] :
         List Entry).getD (probeIdx 4 (1 &&& 3) 1) default).key = KeyF.free ∧
      (([⟨KeyF.free, 0, ValF.user 0⟩, ⟨KeyF.ptr ⟨9, 100⟩, 5, ValF.user 3⟩,
         ⟨KeyF.free, 0, ValF.user 0⟩, ⟨KeyF.free, 0, ValF.user 0⟩] :
         List Entry).getD (probeIdx 4 (1 &&& 3) 1) default).val = ValF.user 0) ∧
    (_putif 2 [⟨KeyF.free, 0, ValF.user 0⟩, ⟨KeyF.ptr ⟨9, 100⟩, 5, ValF.user 3⟩,
        ⟨KeyF.free, 0, ValF.user 0⟩, ⟨KeyF.free, 0, ValF.user 0⟩]
        ⟨1, 0, [7]⟩ ⟨4, 1⟩ 1 7 (OldV.user 3) =
      some (([⟨KeyF.free, 0, ValF.user 0⟩, ⟨KeyF.ptr ⟨9, 100⟩, 5, ValF.user 3⟩,
        ⟨KeyF.free, 0, ValF.user 0⟩, ⟨KeyF.free, 0, ValF.user 0⟩] :
        List Entry).set (probeIdx 4 (1 &&& 3) 1) ⟨KeyF.ptr ⟨4, 1⟩, 1, ValF.user 0⟩,
        ⟨1, 0, [7]⟩, PutOut.val 0) ∧
      _get (1 + 1)
        (([⟨KeyF.free, 0, ValF.user 0⟩, ⟨KeyF.ptr ⟨9, 100⟩, 5, ValF.user 3⟩,
          ⟨KeyF.free, 0, ValF.user 0⟩, ⟨KeyF.free, 0, ValF.user 0⟩] :
          List Entry).set (probeIdx 4 (1 &&& 3) 1) ⟨KeyF.ptr ⟨4, 1⟩, 1, ValF.user 0⟩)
        1 1 = some (PutOut.val 0)) := by
  refine ⟨⟨by decide, by decide, by decide, by decide, by decide, by decide, by decide,
    by decide, by decide⟩, ?_⟩
  exact claim_C10 ⟨4, 1⟩ 1 7 3
    [⟨KeyF.free, 0, ValF.user 0⟩, ⟨KeyF.ptr ⟨9, 100⟩, 5, ValF.user 3⟩,
     ⟨KeyF.free, 0, ValF.user 0⟩, ⟨KeyF.free, 0, ValF.user 0⟩]
    ⟨1, 0, [7]⟩ 1 2 (by decide) (by decide) (by decide) (by decide) (by decide) (by decide)
    (by decide) (by decide) (by decide)

theorem putifValue_length (resizing mustfreekey : Bool) (kvs : List Entry) (ms : MState)
    (idx : Nat) (key : KeyPtr) (val : Nat) (oldval : OldV) (kvs2 : List Entry)
    (ms2 : MState) (out : PutOut)
    (h : putifValue resizing mustfreekey kvs ms idx key val oldval = some (kvs2, ms2, out)) :
    kvs2.length = kvs.length := by
  rcases hv : (kvs.getD idx default).val with _ | v <;> simp only [putifValue, hv] at h
  · cases h
    rfl
  · split at h
    · split at h
      · cases h
      · cases h
        rfl
    · cases h
      exact List.length_set kvs idx _

theorem putifProbe_length (resizing : Bool) (key : KeyPtr) (hash val : Nat) (oldval : OldV) :
    ∀ (fuel : Nat) (kvs : List Entry) (ms : MState) (idx rt : Nat)
      (kvs2 : List Entry) (ms2 : MState) (out : PutOut),
      putifProbe resizing key hash val oldval fuel kvs ms idx rt = some (kvs2, ms2, out) →
      kvs2.length = kvs.length := by
  intro fuel
  induction fuel with
  | zero =>
    intro kvs ms idx rt kvs2 ms2 out h
    cases h
  | succ fuel ih =>
    intro kvs ms idx rt kvs2 ms2 out h
    rcases hk : (kvs.getD idx default).key with _ | _ | k <;>
      simp only [putifProbe, hk] at h
    · split at h
      · split at h
        · cases h
          rfl
        · cases h
          rfl
      · have := putifValue_length _ _ _ _ _ _ _ _ _ _ _ h
        rw [this, List.length_set]
    · cases h
      rfl
    · split at h
      · cases h
      · split at h
        · exact putifValue_length _ _ _ _ _ _ _ _ _ _ _ h
        · split at h
          · cases h
            rfl
          · exact ih _ _ _ _ _ _ _ h

theorem _putifGo_length (resizing : Bool) (fuel : Nat) (kvs : List Entry) (ms : MState)
    (key : KeyPtr) (hash val : Nat) (oldval : OldV) (kvs2 : List Entry) (ms2 : MState)
    (out : PutOut)
    (h : _putifGo resizing fuel kvs ms key hash val oldval = some (kvs2, ms2, out)) :
    kvs2.length = kvs.length := by
  unfold _putifGo at h
  split at h
  · cases h
  · exact putifProbe_length _ _ _ _ _ _ _ _ _ _ _ _ _ h

theorem copySlot_length (fuel : Nat) (nkvs : List Entry) (ms : MState) (e : Entry)
    (nkvs2 : List Entry) (ms2 : MState)
    (h : copySlot fuel nkvs ms e = some (nkvs2, ms2)) :
    nkvs2.length = nkvs.length := by
  unfold copySlot at h
  split at h
  · cases h
    rfl
  · cases h
  · split at h
    · cases h
    · split at h
      · cases h
      · rename_i nkvs3 ms3 out heq
        split at h
        · cases h
          exact _putifGo_length _ _ _ _ _ _ _ _ _ _ _ heq
        · cases h
          exact _putifGo_length _ _ _ _ _ _ _ _ _ _ _ heq

theorem copyKvs_length (fuel : Nat) :
    ∀ (es nkvs : List Entry) (ms : MState) (nkvs2 : List Entry) (ms2 : MState),
      copyKvs fuel es nkvs ms = some (nkvs2, ms2) → nkvs2.length = nkvs.length := by
  intro es
  induction es with
  | nil =>
    intro nkvs ms nkvs2 ms2 h
    cases h
    rfl
  | cons e rest ih =>
    intro nkvs ms nkvs2 ms2 h
    simp only [copyKvs] at h
    split at h
    · cases h
    · rename_i a b heq
      have h1 := copySlot_length fuel nkvs ms e a b heq
      have h2 := ih a b nkvs2 ms2 h
      rw [h2, h1]

theorem ratio_cond (s : Int) (len : Nat) (hlen : 0 < len) :
    ((s : ℚ) / (len : ℚ) < 3 / 10) ↔ (10 * s < 3 * (len : Int)) := by
  rw [div_lt_div_iff₀ (by exact_mod_cast hlen) (by norm_num)]
  constructor
  · intro h
    have h2 : ((10 * s : Int) : ℚ) < ((3 * (len : Int) : Int) : ℚ) := by
      push_cast
      linarith
    exact_mod_cast h2
  · intro h
    have h2 : ((10 * s : Int) : ℚ) < ((3 * (len : Int) : Int) : ℚ) := by exact_mod_cast h
    push_cast at h2
    linarith

theorem sizeClamp_nonneg (ms : MState) : 0 ≤ sizeClamp ms := by
  unfold sizeClamp
  split <;> omega

theorem fshiftAux_zero (b x : Nat) (h : x < 2 ^ 24) : fshiftAux (b + 1) x = 0 := by
  unfold fshiftAux
  rw [if_pos h]

/-- The int-to-float conversion is exact on values up to `2 ^ 24`. -/
theorem fround24_eq_self (x : Nat) (hx : x ≤ 2 ^ 24) : fround24 x = x := by
  rcases Nat.lt_or_ge x (2 ^ 24) with h | h
  · have hsh : fshift x = 0 := fshiftAux_zero 63 x h
    unfold fround24
    rw [hsh]
    simp
  · have hx24 : x = 2 ^ 24 := le_antisymm hx h
    subst hx24
    decide

/-- For a power-of-two length up to `2 ^ 24` and a size within the table,
the exact float comparison of `_resize` agrees with the exact ratio test
`10 * size < 3 * len`. -/
theorem fround24_cond_agree (s e : Nat) (he : e ≤ 24) (hs : s ≤ 2 ^ e) :
    (2 ^ 24 * fround24 s < 5033165 * 2 ^ e ↔ 10 * s < 3 * 2 ^ e) := by
  rw [fround24_eq_self s (le_trans hs (Nat.pow_le_pow_right (by omega) he))]
  interval_cases e <;> omega

/-- C6 (corrected): when the sequential resize coordinator produces a new
table over an old table of length `len`, the new table has the same length
`len` exactly when `changes > len / 4` and the single-precision quotient
`(float)size / (float)len` is below `0.3f` — the integer comparison
`2 ^ 24 * fround24 size < 5033165 * len` — and length `2 * len` otherwise.
Because `(float)size` rounds the size to 24 significant bits, this is NOT
the exact ratio test `size / len < 3 / 10` of the capacity rule as worded
(`claim_C6_counterexample` separates them at `len = 2 ^ 26`); the two agree
whenever `len = 2 ^ e ≤ 2 ^ 24` and `size ≤ len` (as on every reachable
table of such a length). -/
theorem claim_C6 (fuel : Nat) (okvs : List Entry) (ms : MState) (nkvs : List Entry)
    (ms2 : MState)
    (h : _resize fuel okvs ms = some (nkvs, ms2)) :
    (nkvs.length =
      if sameLenCond okvs.length ms then okvs.length else 2 * okvs.length) ∧
    (∀ e ≤ 24, okvs.length = 2 ^ e → sizeClamp ms ≤ (okvs.length : Int) →
      (sameLenCond okvs.length ms ↔ sameLenCondSpec okvs.length ms)) := by
  constructor
  · simp only [_resize] at h
    by_cases hc : sameLenCond okvs.length ms
    · rw [if_pos hc] at h
      rw [if_pos hc]
      split at h
      · cases h
      · rename_i p heq
        cases p
        cases h
        have := copyKvs_length fuel okvs _ ms _ _ heq
        rw [this, List.length_replicate]
    · rw [if_neg hc] at h
      rw [if_neg hc]
      split at h
      · cases h
      · rename_i p heq
        cases p
        cases h
        have := copyKvs_length fuel okvs _ ms _ _ heq
        rw [this, List.length_replicate]
  · intro e he hlen hsz
    have hpos : (0 : Int) ≤ sizeClamp ms := sizeClamp_nonneg ms
    have hts : ((sizeClamp ms).toNat : Int) = sizeClamp ms := Int.toNat_of_nonneg hpos
    have hsn : (sizeClamp ms).toNat ≤ 2 ^ e := by
      have h2 : ((sizeClamp ms).toNat : Int) ≤ ((2 ^ e : Nat) : Int) := by
        rw [hts, ← hlen]
        exact hsz
      exact_mod_cast h2
    have hagree := fround24_cond_agree (sizeClamp ms).toNat e he hsn
    unfold sameLenCond sameLenCondSpec
    rw [hlen]
    constructor
    · rintro ⟨h1, h2⟩
      refine ⟨h1, ?_⟩
      rw [ratio_cond (sizeClamp ms) (2 ^ e) (by positivity)]
      rw [← hts]
      have h2n : 2 ^ 24 * fround24 (sizeClamp ms).toNat < 5033165 * 2 ^ e := by
        exact_mod_cast h2
      have h3 := hagree.mp h2n
      exact_mod_cast h3
    · rintro ⟨h1, h2⟩
      refine ⟨h1, ?_⟩
      rw [ratio_cond (sizeClamp ms) (2 ^ e) (by positivity)] at h2
      rw [← hts] at h2
      have h2n : 10 * (sizeClamp ms).toNat < 3 * 2 ^ e := by exact_mod_cast h2
      have h3 := hagree.mpr h2n
      exact_mod_cast h3

theorem claim_C6_witness :
    (_resize 10 [⟨KeyF.ptr ⟨1, 5⟩, 5, ValF.user 0⟩, ⟨KeyF.free, 0, ValF.user 0⟩,
        ⟨KeyF.free, 0, ValF.user 0⟩, ⟨KeyF.free, 0, ValF.user 0⟩] ⟨0, 2, []⟩ =
      some ([⟨KeyF.free, 0, ValF.user 0⟩, ⟨KeyF.free, 0, ValF.user 0⟩,
        ⟨KeyF.free, 0, ValF.user 0⟩, ⟨KeyF.free, 0, ValF.user 0⟩], ⟨0, 0, [1]⟩)) ∧
    ((4 : Nat) = if sameLenCond 4 ⟨0, 2, []⟩ then 4 else 2 * 4) ∧
    (∀ e ≤ 24, (4 : Nat) = 2 ^ e → sizeClamp ⟨0, 2, []⟩ ≤ ((4 : Nat) : Int) →
      (sameLenCond 4 ⟨0, 2, []⟩ ↔ sameLenCondSpec 4 ⟨0, 2, []⟩)) :=
  ⟨by decide, claim_C6 10
    [⟨KeyF.ptr ⟨1, 5⟩, 5, ValF.user 0⟩, ⟨KeyF.free, 0, ValF.user 0⟩,
     ⟨KeyF.free, 0, ValF.user 0⟩, ⟨KeyF.free, 0, ValF.user 0⟩] ⟨0, 2, []⟩
    [⟨KeyF.free, 0, ValF.user 0⟩, ⟨KeyF.free, 0, ValF.user 0⟩,
     ⟨KeyF.free, 0, ValF.user 0⟩, ⟨KeyF.free, 0, ValF.user 0⟩] ⟨0, 0, [1]⟩
    (by decide)⟩

/-- C6 divergence: at table length `2 ^ 26` with `20132659` live mappings and
`2 ^ 26` changes, the exact ratio `size / len` is below `3 / 10` (the rule as
worded would compact), but the int-to-float conversion rounds the size up to
`20132660`, whose quotient over the length is exactly `0.3f`, so the source
doubles: the capacity decision of the code is not the exact ratio rule. -/
theorem claim_C6_counterexample :
    sameLenCondSpec (2 ^ 26) ⟨20132659, 2 ^ 26, []⟩ ∧
    ¬ sameLenCond (2 ^ 26) ⟨20132659, 2 ^ 26, []⟩ ∧
    fround24 20132659 = 20132660 := by
  refine ⟨⟨by decide, ?_⟩, by decide, by decide⟩
  show ((20132659 : Int) : ℚ) / (((2 ^ 26 : Nat) : Nat) : ℚ) < 3 / 10
  norm_num

/-- C3: the claim that every key pointer passed to `putif` is destructed
exactly once over the life of the map fails on the code.  In the run below,
key pointer 1 (content 5) is inserted, then key pointer 2 (same content 5) is
passed to a conditional update whose `oldval` constraint fails: `_putif`
locates the matching slot, marks the caller's key as redundant
(`mustfreekey = 1`), but returns the current value from the
`oldval != IGNORE && v != oldval` branch without ever storing or freeing the
caller's key.  Key 2 is therefore freed zero times: the complete destructor
history including `hashmap_free` is `[1]`, it contains key 2 zero times and
key 1 once. -/
theorem claim_C3_code_bug :
    (run (fun c => c) 50 [Op.putif 1 5 7 OldV.ignore,
        Op.putif 2 5 9 (OldV.user 3)]).map hashmap_free = some [1] ∧
    (run (fun c => c) 50 [Op.putif 1 5 7 OldV.ignore,
        Op.putif 2 5 9 (OldV.user 3)]).map (fun m => (hashmap_free m).count 2) = some 0 ∧
    (run (fun c => c) 50 [Op.putif 1 5 7 OldV.ignore,
        Op.putif 2 5 9 (OldV.user 3)]).map (fun m => (hashmap_free m).count 1) = some 1 := by
  refine ⟨by decide, by decide, by decide⟩

/-- Characterization of a terminating probe: it walks over `s` misses and then
ends at slot `probeIdx kvs.length idx s` in one of five ways: a SIZED slot, a
reprobe-limit exit, the free-slot delete shortcut, a claim of a free slot
followed by the value phase, or a key match followed by the value phase. -/
theorem putifProbe_sound (resizing : Bool) (key : KeyPtr) (hash val : Nat) (oldval : OldV) :
    ∀ (fuel : Nat) (kvs : List Entry) (ms : MState) (idx rt : Nat)
      (kvs2 : List Entry) (ms2 : MState) (out : PutOut),
      putifProbe resizing key hash val oldval fuel kvs ms idx rt = some (kvs2, ms2, out) →
      ∃ s, (∀ t < s, Miss key hash (kvs.getD (probeIdx kvs.length idx t) default)) ∧
        (((kvs.getD (probeIdx kvs.length idx s) default).key = KeyF.sized ∧
            kvs2 = kvs ∧ ms2 = ms ∧ out = PutOut.sized) ∨
         (Miss key hash (kvs.getD (probeIdx kvs.length idx s) default) ∧
            resizing = false ∧ kvs2 = kvs ∧ ms2 = ms ∧ out = PutOut.limit) ∨
         ((kvs.getD (probeIdx kvs.length idx s) default).key = KeyF.free ∧
            val = 0 ∧ (oldval = OldV.ignore ∨ oldval = OldV.user 0) ∧
            ((resizing = true ∧ kvs2 = kvs ∧ ms2 = ms ∧ out = PutOut.deleted) ∨
             (resizing = false ∧ kvs2 = kvs ∧
               ms2 = { ms with freed := ms.freed ++ [key.id] } ∧ out = PutOut.val 0))) ∨
         ((kvs.getD (probeIdx kvs.length idx s) default).key = KeyF.free ∧
            ¬(val = 0 ∧ (oldval = OldV.ignore ∨ oldval = OldV.user 0)) ∧
            putifValue resizing false
              (kvs.set (probeIdx kvs.length idx s)
                { kvs.getD (probeIdx kvs.length idx s) default with
                    key := KeyF.ptr key, hash := hash })
              ms (probeIdx kvs.length idx s) key val oldval = some (kvs2, ms2, out)) ∨
         (∃ k, (kvs.getD (probeIdx kvs.length idx s) default).key = KeyF.ptr k ∧
            (kvs.getD (probeIdx kvs.length idx s) default).hash = hash ∧
            hash ≠ 0 ∧ k.content = key.content ∧
            putifValue resizing true kvs ms (probeIdx kvs.length idx s) key val oldval =
              some (kvs2, ms2, out))) := by
  intro fuel
  induction fuel with
  | zero =>
    intro kvs ms idx rt kvs2 ms2 out h
    cases h
  | succ fuel ih =>
    intro kvs ms idx rt kvs2 ms2 out h
    rcases hk : (kvs.getD idx default).key with _ | _ | k <;>
      simp only [putifProbe, hk] at h
    · refine ⟨0, fun t ht => absurd ht (by omega), ?_⟩
      split at h
      · rename_i hcond
        split at h
        · rename_i hres
          cases h
          exact Or.inr (Or.inr (Or.inl ⟨hk, hcond.1, hcond.2,
            Or.inl ⟨by simpa using hres, rfl, rfl, rfl⟩⟩))
        · rename_i hres
          cases h
          exact Or.inr (Or.inr (Or.inl ⟨hk, hcond.1, hcond.2,
            Or.inr ⟨by simpa using hres, rfl, rfl, rfl⟩⟩))
      · rename_i hcond
        exact Or.inr (Or.inr (Or.inr (Or.inl ⟨hk, hcond, h⟩)))
    · cases h
      exact ⟨0, fun t ht => absurd ht (by omega),
        Or.inl ⟨hk, rfl, rfl, rfl⟩⟩
    · split at h
      · cases h
      · rename_i hh0
        split at h
        · rename_i hmatch
          refine ⟨0, fun t ht => absurd ht (by omega), ?_⟩
          exact Or.inr (Or.inr (Or.inr (Or.inr ⟨k, hk, hmatch.1,
            hmatch.1 ▸ hh0, hmatch.2, h⟩)))
        · rename_i hnm
          split at h
          · rename_i hcond
            cases h
            refine ⟨0, fun t ht => absurd ht (by omega), ?_⟩
            exact Or.inr (Or.inl ⟨⟨k, hk, hh0, hnm⟩, hcond.1, rfl, rfl, rfl⟩)
          · obtain ⟨s, hmiss, hrest⟩ := ih _ _ _ _ _ _ _ h
            refine ⟨s + 1, ?_, ?_⟩
            · intro t ht
              cases t with
              | zero => exact ⟨k, hk, hh0, hnm⟩
              | succ t =>
                rw [← probeIdx_shift]
                exact hmiss t (by omega)
            · rw [probeIdx_shift] at hrest
              exact hrest

/-- The key content stored in a slot, if the slot holds a user key. -/
def slotContent (e : Entry) : Option Nat :=
  match e.key with
  | KeyF.ptr k => some k.content
  | _ => none

/-- A slot value field as the number `_get` would return for it (the SIZED
sentinel never survives in a current table of a sequential execution). -/
def valNat : ValF → Nat
  | ValF.sized => 0
  | ValF.user v => v

/-- The first slot of the table holding a key with content `c`. -/
def findSlot (c : Nat) : List Entry → Option Entry
  | [] => none
  | e :: es => if slotContent e = some c then some e else findSlot c es

/-- The abstract mapping of the table: the value stored with content `c`,
with 0 for an absent content (and for a tombstone). -/
def mapVal (c : Nat) (kvs : List Entry) : Nat :=
  match findSlot c kvs with
  | none => 0
  | some e => valNat e.val

/-- A live slot: a user key mapped to a non-null user value. -/
def liveE (e : Entry) : Bool :=
  match e.key, e.val with
  | KeyF.ptr _, ValF.user v => v != 0
  | _, _ => false

/-- The number of live mappings in a table. -/
def countLive (kvs : List Entry) : Nat :=
  kvs.countP liveE

/-- The live value stored with content `c` in a list of slots, if any. -/
def liveLookup (c : Nat) : List Entry → Option Nat
  | [] => none
  | e :: es =>
    match e.key, e.val with
    | KeyF.ptr k, ValF.user v =>
      if k.content = c ∧ v ≠ 0 then some v else liveLookup c es
    | _, _ => liveLookup c es

theorem getD_cons_zero (e : Entry) (es : List Entry) :
    (e :: es).getD 0 default = e :=
  rfl

theorem getD_cons_succ (e : Entry) (es : List Entry) (i : Nat) :
    (e :: es).getD (i + 1) default = es.getD i default :=
  rfl

theorem getD_of_len_le (kvs : List Entry) (i : Nat) (h : kvs.length ≤ i) :
    kvs.getD i default = default := by
  rw [List.getD_eq_getElem?_getD, List.getElem?_eq_none (by omega)]
  rfl

theorem findSlot_of_unique (c : Nat) :
    ∀ (kvs : List Entry) (i : Nat), i < kvs.length →
    slotContent (kvs.getD i default) = some c →
    (∀ j < kvs.length, slotContent (kvs.getD j default) = some c → j = i) →
    findSlot c kvs = some (kvs.getD i default) := by
  intro kvs
  induction kvs with
  | nil =>
    intro i hi
    simp at hi
  | cons e es ih =>
    intro i hi hc huniq
    cases i with
    | zero =>
      simp only [getD_cons_zero] at hc ⊢
      simp only [findSlot, if_pos hc]
    | succ i =>
      have hne : slotContent e ≠ some c := by
        intro hq
        have := huniq 0 (by simp) (by simpa [getD_cons_zero] using hq)
        omega
      simp only [getD_cons_succ] at hc ⊢
      simp only [findSlot, if_neg hne]
      refine ih i (by simpa using hi) hc ?_
      intro j hj hjc
      have := huniq (j + 1) (by simpa using hj) (by simpa [getD_cons_succ] using hjc)
      omega

theorem findSlot_none_of_absent (c : Nat) :
    ∀ (kvs : List Entry),
    (∀ j < kvs.length, slotContent (kvs.getD j default) ≠ some c) →
    findSlot c kvs = none := by
  intro kvs
  induction kvs with
  | nil =>
    intro _
    rfl
  | cons e es ih =>
    intro habs
    have hne : slotContent e ≠ some c := by
      have := habs 0 (by simp)
      simpa [getD_cons_zero] using this
    simp only [findSlot, if_neg hne]
    refine ih ?_
    intro j hj
    have := habs (j + 1) (by simpa using hj)
    simpa [getD_cons_succ] using this

theorem findSlot_idx (c : Nat) :
    ∀ (kvs : List Entry) (e : Entry), findSlot c kvs = some e →
    ∃ j < kvs.length, kvs.getD j default = e ∧ slotContent e = some c := by
  intro kvs
  induction kvs with
  | nil =>
    intro e h
    cases h
  | cons e0 es ih =>
    intro e h
    simp only [findSlot] at h
    split at h
    · cases h
      exact ⟨0, by simp, getD_cons_zero _ _, by assumption⟩
    · obtain ⟨j, hj, hje, hjc⟩ := ih e h
      exact ⟨j + 1, by simpa using hj, by rw [getD_cons_succ]; exact hje, hjc⟩

theorem countP_set (p : Entry → Bool) :
    ∀ (kvs : List Entry) (i : Nat) (e : Entry), i < kvs.length →
    (kvs.set i e).countP p + (if p (kvs.getD i default) then 1 else 0) =
    kvs.countP p + (if p e then 1 else 0) := by
  intro kvs
  induction kvs with
  | nil =>
    intro i e hi
    simp at hi
  | cons e0 es ih =>
    intro i e hi
    cases i with
    | zero =>
      simp only [List.set_cons_zero, getD_cons_zero, List.countP_cons]
      split_ifs <;> omega
    | succ i =>
      simp only [List.set_cons_succ, getD_cons_succ, List.countP_cons]
      have := ih i e (by simpa using hi)
      split_ifs at this ⊢ <;> omega

theorem hmHash_ne_zero (hashFn : Nat → Nat) (c : Nat) : hmHash hashFn c ≠ 0 := by
  unfold hmHash
  split
  · exact one_ne_zero
  · assumption

/-- Invariants of every table reachable in a sequential execution: power-of-two
length, no SIZED marks, memoized hashes match the (clamped) hash of the
content, free slots carry a null value, key contents are pairwise distinct,
and every keyed slot is reachable from its hash's start index along a path of
keyed slots (the open-addressing probe invariant; keys are never removed from
a table, so probe chains never break). -/
structure TInv (hashFn : Nat → Nat) (kvs : List Entry) : Prop where
  pow : ∃ e, kvs.length = 2 ^ e
  noSizedK : ∀ i < kvs.length, (kvs.getD i default).key ≠ KeyF.sized
  noSizedV : ∀ i < kvs.length, (kvs.getD i default).val ≠ ValF.sized
  hashOk : ∀ i < kvs.length, ∀ k, (kvs.getD i default).key = KeyF.ptr k →
    (kvs.getD i default).hash = hmHash hashFn k.content
  freeVal : ∀ i < kvs.length, (kvs.getD i default).key = KeyF.free →
    (kvs.getD i default).val = ValF.user 0
  noDup : ∀ i < kvs.length, ∀ j < kvs.length, ∀ ki kj,
    (kvs.getD i default).key = KeyF.ptr ki → (kvs.getD j default).key = KeyF.ptr kj →
    ki.content = kj.content → i = j
  chain : ∀ i < kvs.length, ∀ k, (kvs.getD i default).key = KeyF.ptr k →
    ∃ s < kvs.length,
      probeIdx kvs.length (hmHash hashFn k.content &&& (kvs.length - 1)) s = i ∧
      ∀ t < s, Keyed (kvs.getD
        (probeIdx kvs.length (hmHash hashFn k.content &&& (kvs.length - 1)) t) default)

theorem TInv.pos (hashFn : Nat → Nat) (kvs : List Entry) (h : TInv hashFn kvs) :
    0 < kvs.length := by
  obtain ⟨e, he⟩ := h.pow
  rw [he]
  exact Nat.pos_pow_of_pos e (by omega)

theorem probeIdx_mod (len idx : Nat) (e : Nat) (hl : len = 2 ^ e) (hidx : idx < len) :
    ∀ t, probeIdx len idx t = (idx + t) % len := by
  intro t
  induction t with
  | zero => exact (Nat.mod_eq_of_lt hidx).symm
  | succ t ih =>
    rw [probeIdx_succ, ih]
    subst hl
    rw [Nat.and_pow_two_sub_one_eq_mod, Nat.mod_add_mod]
    rfl

theorem probeIdx_cycle (len idx : Nat) (e : Nat) (hl : len = 2 ^ e) (hidx : idx < len)
    (s : Nat) (hs : len ≤ s) :
    probeIdx len idx s = probeIdx len idx (s - len) := by
  rw [probeIdx_mod len idx e hl hidx, probeIdx_mod len idx e hl hidx]
  have : idx + s = idx + (s - len) + len := by omega
  rw [this, Nat.add_mod_right]

/-- If `key`'s probe path from its start index meets only misses and then a
free slot, the key's content is nowhere in the table (the open-addressing
absence argument: any slot holding the content would be reachable along a
keyed prefix of the same path). -/
theorem absent_of_free_end (hashFn : Nat → Nat) (kvs : List Entry) (key : KeyPtr)
    (hinv : TInv hashFn kvs) (s : Nat)
    (hmiss : ∀ t < s, Miss key (hmHash hashFn key.content)
      (kvs.getD (probeIdx kvs.length (hmHash hashFn key.content &&& (kvs.length - 1)) t)
        default))
    (hfree : (kvs.getD
      (probeIdx kvs.length (hmHash hashFn key.content &&& (kvs.length - 1)) s)
        default).key = KeyF.free) :
    ∀ j < kvs.length, ∀ kj, (kvs.getD j default).key = KeyF.ptr kj →
      kj.content ≠ key.content := by
  intro j hj kj hkj heqc
  obtain ⟨sj, hsjlen, hsjidx, hsjkeyed⟩ := hinv.chain j hj kj hkj
  rw [heqc] at hsjidx hsjkeyed
  have hex : ∃ t, probeIdx kvs.length
      (hmHash hashFn key.content &&& (kvs.length - 1)) t = j := ⟨sj, hsjidx⟩
  have h0 := Nat.find_spec hex
  have h0min : ∀ t, t < Nat.find hex →
      probeIdx kvs.length (hmHash hashFn key.content &&& (kvs.length - 1)) t ≠ j :=
    fun t ht => Nat.find_min hex ht
  have hfind_le : Nat.find hex ≤ sj := Nat.find_min' hex hsjidx
  rcases Nat.lt_trichotomy (Nat.find hex) s with hlt | heq | hgt
  · obtain ⟨km, hkm, _, hnm⟩ := hmiss (Nat.find hex) hlt
    rw [h0] at hkm
    rw [hkj] at hkm
    cases hkm
    have hhash := hinv.hashOk j hj kj hkj
    exact hnm ⟨by rw [h0, hhash, heqc], heqc⟩
  · rw [← heq, h0] at hfree
    rw [hkj] at hfree
    cases hfree
  · have hks := hsjkeyed s (by omega)
    obtain ⟨ks, hks⟩ := hks
    rw [hks] at hfree
    cases hfree

/-- Lookup result of `_get`, with standard fuel `len`, on the clamped hash of
content `c` (what the public wrapper computes before probing). -/
def getVal (hashFn : Nat → Nat) (kvs : List Entry) (c : Nat) : Option PutOut :=
  _get kvs.length kvs c (hmHash hashFn c)

theorem getLoop_absent (c hash : Nat) (kvs : List Entry)
    (hall : ∀ i < kvs.length,
      (kvs.getD i default).key = KeyF.free ∨ MissG c hash (kvs.getD i default)) :
    ∀ n, 0 < n → ∀ j idx, idx < kvs.length → j + n = kvs.length →
    getLoop c hash n kvs idx j = some (PutOut.val 0) := by
  intro n
  induction n with
  | zero => omega
  | succ n ih =>
    intro _ j idx hidx hj
    rcases hall idx hidx with hfree | ⟨k, hk, hh, hnm⟩
    · simp only [getLoop, hfree]
    · rcases Nat.eq_zero_or_pos n with hn | hn
      · subst hn
        simp only [getLoop, hk]
        rw [if_neg hh, if_neg hnm, if_pos (by omega)]
      · rw [getLoop_one_step c hash n kvs idx j k hk hh hnm (by omega)]
        exact ih hn (j + 1) ((idx + 1) &&& (kvs.length - 1))
          (and_sub_one_lt _ _ (by omega)) (by omega)

/-- The shortest probe path to a keyed slot consists of misses: taking the
first time the probe sequence hits the slot, every earlier slot on the path
is keyed (probe-chain invariant) with a different content (no duplicates). -/
theorem reach_min (hashFn : Nat → Nat) (kvs : List Entry) (hinv : TInv hashFn kvs)
    (j : Nat) (hj : j < kvs.length) (kj : KeyPtr)
    (hkj : (kvs.getD j default).key = KeyF.ptr kj) :
    ∃ s0 < kvs.length,
      probeIdx kvs.length (hmHash hashFn kj.content &&& (kvs.length - 1)) s0 = j ∧
      ∀ t < s0, MissG kj.content (hmHash hashFn kj.content)
        (kvs.getD (probeIdx kvs.length
          (hmHash hashFn kj.content &&& (kvs.length - 1)) t) default) := by
  obtain ⟨sj, hsjlen, hsjidx, hkeyed⟩ := hinv.chain j hj kj hkj
  have hex : ∃ t, probeIdx kvs.length
      (hmHash hashFn kj.content &&& (kvs.length - 1)) t = j := ⟨sj, hsjidx⟩
  refine ⟨Nat.find hex, by
      have := Nat.find_min' hex hsjidx
      omega, Nat.find_spec hex, ?_⟩
  intro t ht
  have htsj : t < sj := by
    have := Nat.find_min' hex hsjidx
    omega
  obtain ⟨kt, hkt⟩ := hkeyed t htsj
  have hlt : probeIdx kvs.length (hmHash hashFn kj.content &&& (kvs.length - 1)) t <
      kvs.length :=
    probeIdx_lt _ _ (by omega) (and_sub_one_lt _ _ (by omega)) t
  have hht := hinv.hashOk _ hlt kt hkt
  refine ⟨kt, hkt, by rw [hht]; exact hmHash_ne_zero hashFn kt.content, ?_⟩
  rintro ⟨_, hco⟩
  have := hinv.noDup _ hlt j hj kt kj hkt hkj hco
  exact Nat.find_min hex ht (by rw [← this])

theorem findSlot_none_absent (c : Nat) :
    ∀ (kvs : List Entry), findSlot c kvs = none →
    ∀ j < kvs.length, slotContent (kvs.getD j default) ≠ some c := by
  intro kvs
  induction kvs with
  | nil =>
    intro _ j hj
    simp at hj
  | cons e es ih =>
    intro h j hj
    simp only [findSlot] at h
    split at h
    · cases h
    · rename_i hne
      cases j with
      | zero =>
        rw [getD_cons_zero]
        exact hne
      | succ j =>
        rw [getD_cons_succ]
        exact ih h j (by simpa using hj)

/-- Under the table invariants, `_get` with fuel `len` computes the abstract
mapping: it returns the value of the unique slot holding the queried content,
or 0 when the content is absent (or maps to a tombstone). -/
theorem getVal_eq (hashFn : Nat → Nat) (kvs : List Entry) (c : Nat)
    (hinv : TInv hashFn kvs) :
    getVal hashFn kvs c = some (PutOut.val (mapVal c kvs)) := by
  have hpos : 0 < kvs.length := hinv.pos hashFn kvs
  rcases hfind : findSlot c kvs with _ | e2
  · unfold getVal _get
    rw [mapVal, hfind]
    refine getLoop_absent c (hmHash hashFn c) kvs ?_ kvs.length hpos 0
      (hmHash hashFn c &&& (kvs.length - 1)) (and_sub_one_lt _ _ hpos) (by omega)
    intro i hi
    rcases hk : (kvs.getD i default).key with _ | _ | k
    · exact Or.inl rfl
    · exact absurd hk (hinv.noSizedK i hi)
    · refine Or.inr ⟨k, hk, ?_, ?_⟩
      · rw [hinv.hashOk i hi k hk]
        exact hmHash_ne_zero hashFn k.content
      · rintro ⟨_, hco⟩
        refine findSlot_none_absent c kvs hfind i hi ?_
        have hsc : slotContent (kvs.getD i default) = some k.content := by
          rw [slotContent, hk]
        rw [hsc, hco]
  · obtain ⟨j, hj, hje, hjc⟩ := findSlot_idx c kvs e2 hfind
    rcases hk : e2.key with _ | _ | kj
    · rw [slotContent, hk] at hjc
      cases hjc
    · rw [slotContent, hk] at hjc
      cases hjc
    · rw [slotContent, hk] at hjc
      have hcc : kj.content = c := by
        cases hjc
        rfl
      obtain ⟨s0, hs0len, hs0idx, hs0miss⟩ := reach_min hashFn kvs hinv j hj kj
        (by rw [hje, hk])
      unfold getVal _get
      rw [mapVal, hfind]
      rw [hcc] at hs0idx hs0miss
      have hres := getLoop_match_reach c (hmHash hashFn c) kvs kj s0 0
        (hmHash hashFn c &&& (kvs.length - 1)) kvs.length hs0len (by omega)
        hs0miss
        (by rw [hs0idx, hje, hk])
        (by
          rw [hs0idx]
          have := hinv.hashOk j hj kj (by rw [hje, hk])
          rw [this, hcc])
        (hmHash_ne_zero hashFn c) hcc
      rw [hres, hs0idx, hje]
      rcases hv : e2.val with _ | v
      · exact absurd (by rw [hje, hv] : (kvs.getD j default).val = ValF.sized)
          (hinv.noSizedV j hj)
      · show some (valOut (ValF.user v)) = some (PutOut.val (valNat e2.val))
        rw [hv]
        rfl

theorem lt_len_of_ptr (kvs : List Entry) (i : Nat) (k : KeyPtr)
    (h : (kvs.getD i default).key = KeyF.ptr k) : i < kvs.length := by
  by_contra hq
  rw [getD_of_len_le kvs i (by omega)] at h
  cases h

theorem findSlot_set_irrel (c : Nat) :
    ∀ (kvs : List Entry) (i : Nat) (e : Entry),
    slotContent (kvs.getD i default) ≠ some c → slotContent e ≠ some c →
    findSlot c (kvs.set i e) = findSlot c kvs := by
  intro kvs
  induction kvs with
  | nil =>
    intro i e _ _
    rfl
  | cons e0 es ih =>
    intro i e h1 h2
    cases i with
    | zero =>
      rw [getD_cons_zero] at h1
      simp only [List.set_cons_zero, findSlot, if_neg h1, if_neg h2]
    | succ i =>
      rw [getD_cons_succ] at h1
      simp only [List.set_cons_succ, findSlot]
      split
      · rfl
      · exact ih i e h1 h2

theorem mapVal_set_irrel (c : Nat) (kvs : List Entry) (i : Nat) (e : Entry)
    (h1 : slotContent (kvs.getD i default) ≠ some c) (h2 : slotContent e ≠ some c) :
    mapVal c (kvs.set i e) = mapVal c kvs := by
  rw [mapVal, mapVal, findSlot_set_irrel c kvs i e h1 h2]

theorem mapVal_at_unique (c : Nat) (kvs : List Entry) (i : Nat) (hi : i < kvs.length)
    (hc : slotContent (kvs.getD i default) = some c)
    (huniq : ∀ j < kvs.length, slotContent (kvs.getD j default) = some c → j = i) :
    mapVal c kvs = valNat (kvs.getD i default).val := by
  rw [mapVal, findSlot_of_unique c kvs i hi hc huniq]

theorem mapVal_absent (c : Nat) (kvs : List Entry)
    (habs : ∀ j < kvs.length, slotContent (kvs.getD j default) ≠ some c) :
    mapVal c kvs = 0 := by
  rw [mapVal, findSlot_none_of_absent c kvs habs]

theorem shrink_s (kvs : List Entry) (key : KeyPtr) (hash : Nat) (e0 idx : Nat)
    (hpow : kvs.length = 2 ^ e0) (hidx : idx < kvs.length) (s : Nat)
    (hmiss : ∀ t < s, Miss key hash (kvs.getD (probeIdx kvs.length idx t) default))
    (hnm : ¬Miss key hash (kvs.getD (probeIdx kvs.length idx s) default)) :
    s < kvs.length := by
  by_contra hq
  have hpos : 0 < kvs.length := by
    rw [hpow]
    exact Nat.pos_pow_of_pos e0 (by omega)
  have hcyc := probeIdx_cycle kvs.length idx e0 hpow hidx s (by omega)
  exact hnm (hcyc ▸ hmiss (s - kvs.length) (by omega))

theorem slotContent_ptr (e : Entry) (k : KeyPtr) (h : e.key = KeyF.ptr k) :
    slotContent e = some k.content := by
  rw [slotContent, h]

theorem slotContent_not_ptr (e : Entry) (c : Nat) (h : ∀ k, e.key ≠ KeyF.ptr k) :
    slotContent e ≠ some c := by
  rw [slotContent]
  rcases hk : e.key with _ | _ | k
  · intro hq
    cases hq
  · intro hq
    cases hq
  · exact absurd hk (h k)

/-- Claiming a free slot reached along a miss-only probe path preserves the
table invariants: the content is new (absence lemma), the stored hash is the
content's clamped hash, and the miss-only path doubles as the new slot's
probe chain. -/
theorem TInv_set_claim (hashFn : Nat → Nat) (kvs : List Entry) (key : KeyPtr) (w : Nat)
    (hinv : TInv hashFn kvs) (s i : Nat)
    (hieq : i = probeIdx kvs.length (hmHash hashFn key.content &&& (kvs.length - 1)) s)
    (hslt : s < kvs.length)
    (hmiss : ∀ t < s, Miss key (hmHash hashFn key.content)
      (kvs.getD (probeIdx kvs.length
        (hmHash hashFn key.content &&& (kvs.length - 1)) t) default))
    (hfree : (kvs.getD i default).key = KeyF.free) :
    TInv hashFn (kvs.set i ⟨KeyF.ptr key, hmHash hashFn key.content, ValF.user w⟩) := by
  have hpos : 0 < kvs.length := hinv.pos hashFn kvs
  have hilt : i < kvs.length := by
    rw [hieq]
    exact probeIdx_lt _ _ hpos (and_sub_one_lt _ _ hpos) s
  have habs := absent_of_free_end hashFn kvs key hinv s hmiss (hieq ▸ hfree)
  have hgdi := getD_set_self kvs i
    (⟨KeyF.ptr key, hmHash hashFn key.content, ValF.user w⟩ : Entry) hilt
  refine ⟨?_, ?_, ?_, ?_, ?_, ?_, ?_⟩
  · rw [List.length_set]
    exact hinv.pow
  · intro j hj
    rw [List.length_set] at hj
    by_cases hji : j = i
    · subst hji
      rw [hgdi]
      intro hq
      cases hq
    · rw [getD_set_other _ _ _ _ (fun hq => hji hq.symm)]
      exact hinv.noSizedK j hj
  · intro j hj
    rw [List.length_set] at hj
    by_cases hji : j = i
    · subst hji
      rw [hgdi]
      intro hq
      cases hq
    · rw [getD_set_other _ _ _ _ (fun hq => hji hq.symm)]
      exact hinv.noSizedV j hj
  · intro j hj k hk
    rw [List.length_set] at hj
    by_cases hji : j = i
    · subst hji
      rw [hgdi] at hk ⊢
      cases hk
      rfl
    · rw [getD_set_other _ _ _ _ (fun hq => hji hq.symm)] at hk ⊢
      exact hinv.hashOk j hj k hk
  · intro j hj hk
    rw [List.length_set] at hj
    by_cases hji : j = i
    · subst hji
      rw [hgdi] at hk
      cases hk
    · rw [getD_set_other _ _ _ _ (fun hq => hji hq.symm)] at hk ⊢
      exact hinv.freeVal j hj hk
  · intro j1 hj1 j2 hj2 k1 k2 h1 h2 hc
    rw [List.length_set] at hj1 hj2
    by_cases hji1 : j1 = i <;> by_cases hji2 : j2 = i
    · rw [hji1, hji2]
    · subst hji1
      rw [hgdi] at h1
      cases h1
      rw [getD_set_other _ _ _ _ (fun hq => hji2 hq.symm)] at h2
      exact absurd hc.symm (habs j2 hj2 k2 h2)
    · subst hji2
      rw [hgdi] at h2
      cases h2
      rw [getD_set_other _ _ _ _ (fun hq => hji1 hq.symm)] at h1
      exact absurd hc (habs j1 hj1 k1 h1)
    · rw [getD_set_other _ _ _ _ (fun hq => hji1 hq.symm)] at h1
      rw [getD_set_other _ _ _ _ (fun hq => hji2 hq.symm)] at h2
      exact hinv.noDup j1 hj1 j2 hj2 k1 k2 h1 h2 hc
  · intro j hj k hk
    rw [List.length_set] at hj
    simp only [List.length_set]
    by_cases hji : j = i
    · rw [hji] at hk ⊢
      rw [hgdi] at hk
      cases hk
      refine ⟨s, hslt, hieq.symm, ?_⟩
      intro t ht
      by_cases hti : probeIdx kvs.length
          (hmHash hashFn key.content &&& (kvs.length - 1)) t = i
      · rw [hti, hgdi]
        exact ⟨key, rfl⟩
      · rw [getD_set_other _ _ _ _ (fun hq => hti hq.symm)]
        obtain ⟨kt, hkt, _, _⟩ := hmiss t ht
        exact ⟨kt, hkt⟩
    · rw [getD_set_other _ _ _ _ (fun hq => hji hq.symm)] at hk
      obtain ⟨sj, hsjlen, hsjidx, hsjkeyed⟩ := hinv.chain j hj k hk
      refine ⟨sj, hsjlen, hsjidx, ?_⟩
      intro t ht
      by_cases hti : probeIdx kvs.length
          (hmHash hashFn k.content &&& (kvs.length - 1)) t = i
      · rw [hti, hgdi]
        exact ⟨key, rfl⟩
      · rw [getD_set_other _ _ _ _ (fun hq => hti hq.symm)]
        exact hsjkeyed t ht

/-- Overwriting only the value field of a keyed slot preserves the table
invariants: key and hash fields, and hence chains and distinctness, are
untouched. -/
theorem TInv_set_val (hashFn : Nat → Nat) (kvs : List Entry) (hinv : TInv hashFn kvs)
    (i : Nat) (w : Nat) (k0 : KeyPtr)
    (hk0 : (kvs.getD i default).key = KeyF.ptr k0) :
    TInv hashFn (kvs.set i { kvs.getD i default with val := ValF.user w }) := by
  have hilt : i < kvs.length := lt_len_of_ptr kvs i k0 hk0
  have hgdi := getD_set_self kvs i
    ({ kvs.getD i default with val := ValF.user w } : Entry) hilt
  have hkeys : ∀ j, ((kvs.set i { kvs.getD i default with val := ValF.user w }).getD j
      default).key = (kvs.getD j default).key := by
    intro j
    by_cases hji : j = i
    · subst hji
      rw [hgdi]
    · rw [getD_set_other _ _ _ _ (fun hq => hji hq.symm)]
  have hhashes : ∀ j, ((kvs.set i { kvs.getD i default with val := ValF.user w }).getD j
      default).hash = (kvs.getD j default).hash := by
    intro j
    by_cases hji : j = i
    · subst hji
      rw [hgdi]
    · rw [getD_set_other _ _ _ _ (fun hq => hji hq.symm)]
  refine ⟨?_, ?_, ?_, ?_, ?_, ?_, ?_⟩
  · rw [List.length_set]
    exact hinv.pow
  · intro j hj
    rw [List.length_set] at hj
    rw [hkeys j]
    exact hinv.noSizedK j hj
  · intro j hj
    rw [List.length_set] at hj
    by_cases hji : j = i
    · subst hji
      rw [hgdi]
      intro hq
      cases hq
    · rw [getD_set_other _ _ _ _ (fun hq => hji hq.symm)]
      exact hinv.noSizedV j hj
  · intro j hj k hk
    rw [List.length_set] at hj
    rw [hkeys j] at hk
    rw [hhashes j]
    exact hinv.hashOk j hj k hk
  · intro j hj hk
    rw [List.length_set] at hj
    rw [hkeys j] at hk
    by_cases hji : j = i
    · subst hji
      rw [hk0] at hk
      cases hk
    · rw [getD_set_other _ _ _ _ (fun hq => hji hq.symm)]
      exact hinv.freeVal j hj hk
  · intro j1 hj1 j2 hj2 k1 k2 h1 h2 hc
    rw [List.length_set] at hj1 hj2
    rw [hkeys j1] at h1
    rw [hkeys j2] at h2
    exact hinv.noDup j1 hj1 j2 hj2 k1 k2 h1 h2 hc
  · intro j hj k hk
    rw [List.length_set] at hj
    rw [hkeys j] at hk
    simp only [List.length_set]
    obtain ⟨sj, hsjlen, hsjidx, hsjkeyed⟩ := hinv.chain j hj k hk
    refine ⟨sj, hsjlen, hsjidx, ?_⟩
    intro t ht
    have := hsjkeyed t ht
    obtain ⟨kt, hkt⟩ := this
    refine ⟨kt, ?_⟩
    rw [hkeys _]
    exact hkt

theorem mapVal_set_self (c : Nat) (kvs : List Entry) (i : Nat) (e : Entry)
    (hi : i < kvs.length) (hc : slotContent e = some c)
    (huniq : ∀ j < kvs.length, j ≠ i → slotContent (kvs.getD j default) ≠ some c) :
    mapVal c (kvs.set i e) = valNat e.val := by
  rw [mapVal_at_unique c (kvs.set i e) i (by rw [List.length_set]; exact hi)
    (by rw [getD_set_self kvs i e hi]; exact hc)
    (by
      intro j hj hjc
      rw [List.length_set] at hj
      by_cases hji : j = i
      · exact hji
      · rw [getD_set_other _ _ _ _ (fun hq => hji hq.symm)] at hjc
        exact absurd hjc (huniq j hj hji)), getD_set_self kvs i e hi]

theorem set_set_entry (l : List Entry) (i : Nat) (a b : Entry) :
    (l.set i a).set i b = l.set i b :=
  List.set_set a b l i

/-- Combined effect of one non-resizing `_putif` probe-and-update attempt on
an invariant table, called with the clamped hash of the key content (as the
public wrapper does): either it hits the reprobe limit leaving everything
unchanged, or it returns the abstract prior mapping of the content and
updates the table exactly as CAS semantics dictate, preserving the
invariants, the live-count/size relation, and value provenance. -/
theorem _putifGo_false_effect (hashFn : Nat → Nat) (fuel : Nat) (kvs : List Entry)
    (ms : MState) (key : KeyPtr) (val : Nat) (oldval : OldV) (kvs2 : List Entry)
    (ms2 : MState) (out : PutOut) (hinv : TInv hashFn kvs)
    (h : _putifGo false fuel kvs ms key (hmHash hashFn key.content) val oldval =
      some (kvs2, ms2, out)) :
    (out = PutOut.limit ∧ kvs2 = kvs ∧ ms2 = ms) ∨
    (TInv hashFn kvs2 ∧
      out = PutOut.val (mapVal key.content kvs) ∧
      ((oldval = OldV.ignore ∨ oldval = OldV.user (mapVal key.content kvs)) →
        mapVal key.content kvs2 = val) ∧
      ((oldval ≠ OldV.ignore ∧ oldval ≠ OldV.user (mapVal key.content kvs)) →
        mapVal key.content kvs2 = mapVal key.content kvs) ∧
      (∀ c, c ≠ key.content → mapVal c kvs2 = mapVal c kvs) ∧
      (ms2.size - ms.size = (countLive kvs2 : Int) - (countLive kvs : Int)) ∧
      (ms2.freed = ms.freed ∨ ms2.freed = ms.freed ++ [key.id]) ∧
      (∀ i2 < kvs2.length, ∀ v2, (kvs2.getD i2 default).val = ValF.user v2 →
        v2 = val ∨ ∃ i0 < kvs.length, (kvs.getD i0 default).val = ValF.user v2)) := by
  have hpos : 0 < kvs.length := hinv.pos hashFn kvs
  obtain ⟨e0, hpow⟩ := hinv.pow
  have hstart : hmHash hashFn key.content &&& (kvs.length - 1) < kvs.length :=
    and_sub_one_lt _ _ hpos
  unfold _putifGo at h
  rw [if_neg (hmHash_ne_zero hashFn key.content)] at h
  obtain ⟨s, hmiss, hcase⟩ := putifProbe_sound false key (hmHash hashFn key.content)
    val oldval fuel kvs ms _ 0 kvs2 ms2 out h
  rcases hcase with ⟨hsz, _, _, _⟩ | ⟨_, _, hkq, hmq, hoq⟩ | hdel | hclaim | hmatch
  · -- a SIZED slot cannot occur in an invariant table
    exact absurd hsz (hinv.noSizedK _
      (probeIdx_lt _ _ hpos hstart s))
  · exact Or.inl ⟨hoq, hkq, hmq⟩
  · -- free slot, delete shortcut
    obtain ⟨hfree, hval0, hov, hsub⟩ := hdel
    have habs := absent_of_free_end hashFn kvs key hinv s hmiss hfree
    have habs2 : ∀ j < kvs.length, slotContent (kvs.getD j default) ≠ some key.content := by
      intro j hj
      rcases hkj : (kvs.getD j default).key with _ | _ | kj
      · rw [slotContent, hkj]
        intro hq
        cases hq
      · rw [slotContent, hkj]
        intro hq
        cases hq
      · rw [slotContent_ptr _ kj hkj]
        intro hq
        injection hq with hq2
        exact absurd hq2 (habs j hj kj hkj)
    have hmv0 : mapVal key.content kvs = 0 := mapVal_absent _ kvs habs2
    rcases hsub with ⟨hres, _, _, _⟩ | ⟨_, hkq, hmq, hoq⟩
    · cases hres
    refine Or.inr ⟨hkq ▸ hinv, by rw [hoq, hmv0], ?_, ?_, ?_, ?_, ?_, ?_⟩
    · intro _
      rw [hkq, hmv0, hval0]
    · intro ⟨hn1, hn2⟩
      rw [hmv0] at hn2
      rcases hov with hov | hov
      · exact absurd hov hn1
      · exact absurd hov hn2
    · intro c _
      rw [hkq]
    · rw [hmq, hkq]
      show ms.size - ms.size = (countLive kvs : Int) - (countLive kvs : Int)
      omega
    · rw [hmq]
      right
      rfl
    · intro i2 hi2 v2 hv2
      rw [hkq] at hi2 hv2
      exact Or.inr ⟨i2, hi2, hv2⟩
  · -- free slot, claim
    obtain ⟨hfree, hncond, hpv⟩ := hclaim
    have hslt : s < kvs.length := by
      refine shrink_s kvs key (hmHash hashFn key.content) e0 _ hpow hstart s hmiss ?_
      rintro ⟨kq, hkq2, _, _⟩
      rw [hfree] at hkq2
      cases hkq2
    have hilt : probeIdx kvs.length (hmHash hashFn key.content &&& (kvs.length - 1)) s <
        kvs.length := probeIdx_lt _ _ hpos hstart s
    have habs := absent_of_free_end hashFn kvs key hinv s hmiss hfree
    have habs2 : ∀ j < kvs.length, slotContent (kvs.getD j default) ≠ some key.content := by
      intro j hj
      rcases hkj : (kvs.getD j default).key with _ | _ | kj
      · rw [slotContent, hkj]
        intro hq
        cases hq
      · rw [slotContent, hkj]
        intro hq
        cases hq
      · rw [slotContent_ptr _ kj hkj]
        intro hq
        injection hq with hq2
        exact absurd hq2 (habs j hj kj hkj)
    have hmv0 : mapVal key.content kvs = 0 := mapVal_absent _ kvs habs2
    have hval0 := hinv.freeVal _ hilt hfree
    have he1 : ({ kvs.getD (probeIdx kvs.length
        (hmHash hashFn key.content &&& (kvs.length - 1)) s) default with
        key := KeyF.ptr key, hash := hmHash hashFn key.content } : Entry) =
        ⟨KeyF.ptr key, hmHash hashFn key.content, ValF.user 0⟩ := by
      rw [← hval0]
    rw [he1] at hpv
    have hgd1 := getD_set_self kvs _
      (⟨KeyF.ptr key, hmHash hashFn key.content, ValF.user 0⟩ : Entry) hilt
    simp only [putifValue, hgd1] at hpv
    split at hpv
    · -- oldval mismatch on the fresh tombstone
      rename_i hc
      simp only [Bool.false_eq_true, if_false] at hpv
      cases hpv
      refine Or.inr ⟨TInv_set_claim hashFn kvs key 0 hinv s (probeIdx kvs.length (hmHash hashFn key.content &&& (kvs.length - 1)) s) rfl hslt hmiss hfree,
        by rw [hmv0], ?_, ?_, ?_, ?_, ?_, ?_⟩
      · intro hov
        rw [hmv0] at hov
        rcases hov with hov | hov
        · exact absurd hov hc.1
        · exact absurd hov hc.2
      · intro _
        rw [hmv0]
        rw [mapVal_set_self key.content kvs _
          (⟨KeyF.ptr key, hmHash hashFn key.content, ValF.user 0⟩ : Entry) hilt
          (by rw [slotContent]) (fun j hj _ => habs2 j hj)]
        rfl
      · intro c hc2
        refine mapVal_set_irrel c kvs _ _ ?_ ?_
        · rw [slotContent, hfree]
          intro hq
          cases hq
        · rw [slotContent]
          intro hq
          cases hq
          exact hc2 rfl
      · have hcnt := countP_set liveE kvs _
          (⟨KeyF.ptr key, hmHash hashFn key.content, ValF.user 0⟩ : Entry) hilt
        have hl1 : liveE (kvs.getD (probeIdx kvs.length
            (hmHash hashFn key.content &&& (kvs.length - 1)) s) default) = false := by
          rw [liveE, hfree]
        have hl2 : liveE (⟨KeyF.ptr key, hmHash hashFn key.content,
            ValF.user 0⟩ : Entry) = false := by
          rw [liveE]
          simp
        rw [hl1, hl2] at hcnt
        unfold countLive
        omega
      · left
        rfl
      · intro i2 hi2 v2 hv2
        rw [List.length_set] at hi2
        by_cases hji : i2 = probeIdx kvs.length
            (hmHash hashFn key.content &&& (kvs.length - 1)) s
        · rw [hji, hgd1] at hv2
          cases hv2
          exact Or.inr ⟨_, hilt, hval0⟩
        · rw [getD_set_other _ _ _ _ (fun hq => hji hq.symm)] at hv2
          exact Or.inr ⟨i2, hi2, hv2⟩
    · -- value CAS on the claimed slot
      rename_i hc
      cases hpv
      rw [set_set_entry] at *
      have hgd2 := getD_set_self kvs _
        ({ (⟨KeyF.ptr key, hmHash hashFn key.content, ValF.user 0⟩ : Entry) with
          val := ValF.user val }) hilt
      refine Or.inr ⟨TInv_set_claim hashFn kvs key val hinv s (probeIdx kvs.length (hmHash hashFn key.content &&& (kvs.length - 1)) s) rfl hslt hmiss hfree,
        by rw [hmv0], ?_, ?_, ?_, ?_, ?_, ?_⟩
      · intro _
        rw [mapVal_set_self key.content kvs _
          ({ (⟨KeyF.ptr key, hmHash hashFn key.content, ValF.user 0⟩ : Entry) with
            val := ValF.user val }) hilt
          (by rw [slotContent]) (fun j hj _ => habs2 j hj)]
        rfl
      · intro hcon
        rw [hmv0] at hcon
        exact absurd hcon hc
      · intro c hc2
        refine mapVal_set_irrel c kvs _ _ ?_ ?_
        · rw [slotContent, hfree]
          intro hq
          cases hq
        · rw [slotContent]
          intro hq
          cases hq
          exact hc2 rfl
      · have hcnt := countP_set liveE kvs _
          ({ (⟨KeyF.ptr key, hmHash hashFn key.content, ValF.user 0⟩ : Entry) with
            val := ValF.user val }) hilt
        have hl1 : liveE (kvs.getD (probeIdx kvs.length
            (hmHash hashFn key.content &&& (kvs.length - 1)) s) default) = false := by
          rw [liveE, hfree]
        rw [hl1] at hcnt
        have hl2 : liveE ({ (⟨KeyF.ptr key, hmHash hashFn key.content,
            ValF.user 0⟩ : Entry) with val := ValF.user val }) = (val != 0) := by
          rw [liveE]
        rw [hl2] at hcnt
        unfold countLive
        by_cases hv : val = 0 <;> simp [hv] at hcnt ⊢ <;> omega
      · left
        rfl
      · intro i2 hi2 v2 hv2
        rw [List.length_set] at hi2
        by_cases hji : i2 = probeIdx kvs.length
            (hmHash hashFn key.content &&& (kvs.length - 1)) s
        · rw [hji, hgd2] at hv2
          cases hv2
          exact Or.inl rfl
        · rw [getD_set_other _ _ _ _ (fun hq => hji hq.symm)] at hv2
          exact Or.inr ⟨i2, hi2, hv2⟩
  · -- matching slot
    obtain ⟨k, hk, hhs, hh0, hcnt, hpv⟩ := hmatch
    have hilt : probeIdx kvs.length (hmHash hashFn key.content &&& (kvs.length - 1)) s <
        kvs.length := probeIdx_lt _ _ hpos hstart s
    have huniq : ∀ j < kvs.length,
        slotContent (kvs.getD j default) = some key.content →
        j = probeIdx kvs.length (hmHash hashFn key.content &&& (kvs.length - 1)) s := by
      intro j hj hjc
      rcases hkj : (kvs.getD j default).key with _ | _ | kj
      · rw [slotContent, hkj] at hjc
        cases hjc
      · rw [slotContent, hkj] at hjc
        cases hjc
      · rw [slotContent_ptr _ kj hkj] at hjc
        have : kj.content = key.content := by
          injection hjc
        exact hinv.noDup j hj _ hilt kj k hkj hk (by rw [this, hcnt])
    rcases hvz : (kvs.getD (probeIdx kvs.length
        (hmHash hashFn key.content &&& (kvs.length - 1)) s) default).val with _ | v0
    · exact absurd hvz (hinv.noSizedV _ hilt)
    have hmvb : mapVal key.content kvs = v0 := by
      rw [mapVal_at_unique key.content kvs _ hilt
        (by rw [slotContent_ptr _ k hk, hcnt]) huniq, hvz]
      rfl
    simp only [putifValue, hvz] at hpv
    split at hpv
    · rename_i hc
      simp only [Bool.false_eq_true, if_false] at hpv
      cases hpv
      refine Or.inr ⟨hinv, by rw [hmvb], ?_, ?_, ?_, ?_, ?_, ?_⟩
      · intro hov
        rw [hmvb] at hov
        rcases hov with hov | hov
        · exact absurd hov hc.1
        · exact absurd hov hc.2
      · intro _
        rfl
      · intro c _
        rfl
      · omega
      · left
        rfl
      · intro i2 hi2 v2 hv2
        exact Or.inr ⟨i2, hi2, hv2⟩
    · rename_i hc
      cases hpv
      have hgd2 := getD_set_self kvs _
        ({ kvs.getD (probeIdx kvs.length
            (hmHash hashFn key.content &&& (kvs.length - 1)) s) default with
          val := ValF.user val }) hilt
      refine Or.inr ⟨TInv_set_val hashFn kvs hinv _ val k hk, by rw [hmvb], ?_, ?_,
        ?_, ?_, ?_, ?_⟩
      · intro _
        have hkup : ({ kvs.getD (probeIdx kvs.length
            (hmHash hashFn key.content &&& (kvs.length - 1)) s) default with
            val := ValF.user val } : Entry).key = KeyF.ptr k := hk
        rw [mapVal_set_self key.content kvs _
          ({ kvs.getD (probeIdx kvs.length
            (hmHash hashFn key.content &&& (kvs.length - 1)) s) default with
            val := ValF.user val }) hilt
          (by rw [slotContent_ptr _ k hkup, hcnt])
          (fun j hj hji hjc => hji (huniq j hj hjc))]
        rfl
      · intro hcon
        rw [hmvb] at hcon
        exact absurd hcon hc
      · intro c hc2
        refine mapVal_set_irrel c kvs _ _ ?_ ?_
        · rw [slotContent_ptr _ k hk]
          intro hq
          injection hq with hq2
          rw [hq2] at hcnt
          exact hc2 hcnt
        · have hkup2 : ({ kvs.getD (probeIdx kvs.length
            (hmHash hashFn key.content &&& (kvs.length - 1)) s) default with
              val := ValF.user val } : Entry).key = KeyF.ptr k := hk
          rw [slotContent_ptr _ k hkup2]
          intro hq
          injection hq with hq2
          rw [hq2] at hcnt
          exact hc2 hcnt
      · have hcnt2 := countP_set liveE kvs _
          ({ kvs.getD (probeIdx kvs.length
              (hmHash hashFn key.content &&& (kvs.length - 1)) s) default with
            val := ValF.user val }) hilt
        have hl1 : liveE (kvs.getD (probeIdx kvs.length
            (hmHash hashFn key.content &&& (kvs.length - 1)) s) default) = (v0 != 0) := by
          rw [liveE]
          show (match (kvs.getD (probeIdx kvs.length
            (hmHash hashFn key.content &&& (kvs.length - 1)) s) default).key,
            (kvs.getD (probeIdx kvs.length
              (hmHash hashFn key.content &&& (kvs.length - 1)) s) default).val with
            | KeyF.ptr _, ValF.user v => v != 0
            | _, _ => false) = (v0 != 0)
          rw [hk, hvz]
        have hl2 : liveE ({ kvs.getD (probeIdx kvs.length
            (hmHash hashFn key.content &&& (kvs.length - 1)) s) default with
            val := ValF.user val }) = (val != 0) := by
          rw [liveE]
          show (match (kvs.getD (probeIdx kvs.length
            (hmHash hashFn key.content &&& (kvs.length - 1)) s) default).key,
            (ValF.user val : ValF) with
            | KeyF.ptr _, ValF.user v => v != 0
            | _, _ => false) = (val != 0)
          rw [hk]
        rw [hl1, hl2] at hcnt2
        unfold countLive
        by_cases hv : val = 0 <;> by_cases hv0 : v0 = 0 <;>
          simp [hv, hv0] at hcnt2 ⊢ <;> omega
      · right
        rfl
      · intro i2 hi2 v2 hv2
        rw [List.length_set] at hi2
        by_cases hji : i2 = probeIdx kvs.length
            (hmHash hashFn key.content &&& (kvs.length - 1)) s
        · rw [hji, hgd2] at hv2
          cases hv2
          exact Or.inl rfl
        · rw [getD_set_other _ _ _ _ (fun hq => hji hq.symm)] at hv2
          exact Or.inr ⟨i2, hi2, hv2⟩

/-- Effect of one resize-copy-mode `_putif` call on the new table, inserting a
migrated entry whose content is not yet present: a tombstone is signalled
DELETED and nothing changes; a live value claims a fresh slot, adding exactly
one live mapping; the map-level state is never touched in resize-copy mode. -/
theorem _putifGo_true_effect (hashFn : Nat → Nat) (fuel : Nat) (nkvs : List Entry)
    (ms : MState) (k : KeyPtr) (v : Nat) (nkvs2 : List Entry) (ms2 : MState)
    (out : PutOut) (hinv : TInv hashFn nkvs)
    (hnew : ∀ j < nkvs.length, slotContent (nkvs.getD j default) ≠ some k.content)
    (h : _putifGo true fuel nkvs ms k (hmHash hashFn k.content) v (OldV.user 0) =
      some (nkvs2, ms2, out)) :
    ms2 = ms ∧
    ((v = 0 ∧ out = PutOut.deleted ∧ nkvs2 = nkvs) ∨
     (v ≠ 0 ∧ out ≠ PutOut.deleted ∧ TInv hashFn nkvs2 ∧
       mapVal k.content nkvs2 = v ∧
       (∀ c, c ≠ k.content → mapVal c nkvs2 = mapVal c nkvs) ∧
       countLive nkvs2 = countLive nkvs + 1 ∧
       (∀ i2 < nkvs2.length, ∀ k2, (nkvs2.getD i2 default).key = KeyF.ptr k2 →
         (k2 = k ∧ (nkvs2.getD i2 default).val = ValF.user v) ∨
         (∃ i0 < nkvs.length, nkvs.getD i0 default = nkvs2.getD i2 default)) ∧
       (∀ i2 < nkvs2.length, ∀ v2, (nkvs2.getD i2 default).val = ValF.user v2 →
         v2 = v ∨ ∃ i0 < nkvs.length, (nkvs.getD i0 default).val = ValF.user v2))) := by
  have hpos : 0 < nkvs.length := hinv.pos hashFn nkvs
  obtain ⟨e0, hpow⟩ := hinv.pow
  have hstart : hmHash hashFn k.content &&& (nkvs.length - 1) < nkvs.length :=
    and_sub_one_lt _ _ hpos
  unfold _putifGo at h
  rw [if_neg (hmHash_ne_zero hashFn k.content)] at h
  obtain ⟨s, hmiss, hcase⟩ := putifProbe_sound true k (hmHash hashFn k.content)
    v (OldV.user 0) fuel nkvs ms _ 0 nkvs2 ms2 out h
  rcases hcase with ⟨hsz, _, _, _⟩ | ⟨_, hfq, _, _⟩ | hdel | hclaim | hmatch
  · exact absurd hsz (hinv.noSizedK _ (probeIdx_lt _ _ hpos hstart s))
  · cases hfq
  · obtain ⟨hfree, hv0, _, hsub⟩ := hdel
    rcases hsub with ⟨_, hkq, hmq, hoq⟩ | ⟨hfq, _, _, _⟩
    · exact ⟨hmq, Or.inl ⟨hv0, hoq, hkq⟩⟩
    · cases hfq
  · obtain ⟨hfree, hncond, hpv⟩ := hclaim
    have hvne : v ≠ 0 := by
      intro hq
      exact hncond ⟨hq, Or.inr rfl⟩
    have hslt : s < nkvs.length := by
      refine shrink_s nkvs k (hmHash hashFn k.content) e0 _ hpow hstart s hmiss ?_
      rintro ⟨kq, hkq2, _, _⟩
      rw [hfree] at hkq2
      cases hkq2
    have hilt : probeIdx nkvs.length (hmHash hashFn k.content &&& (nkvs.length - 1)) s <
        nkvs.length := probeIdx_lt _ _ hpos hstart s
    have hval0 := hinv.freeVal _ hilt hfree
    have he1 : ({ nkvs.getD (probeIdx nkvs.length
        (hmHash hashFn k.content &&& (nkvs.length - 1)) s) default with
        key := KeyF.ptr k, hash := hmHash hashFn k.content } : Entry) =
        ⟨KeyF.ptr k, hmHash hashFn k.content, ValF.user 0⟩ := by
      rw [← hval0]
    rw [he1] at hpv
    have hgd1 := getD_set_self nkvs _
      (⟨KeyF.ptr k, hmHash hashFn k.content, ValF.user 0⟩ : Entry) hilt
    simp only [putifValue, hgd1] at hpv
    rw [if_neg (by
      rintro ⟨_, hq2⟩
      exact hq2 rfl)] at hpv
    cases hpv
    rw [set_set_entry] at *
    have hgd2 := getD_set_self nkvs _
      ({ (⟨KeyF.ptr k, hmHash hashFn k.content, ValF.user 0⟩ : Entry) with
        val := ValF.user v }) hilt
    refine ⟨by simp, Or.inr ⟨hvne, by simp, ?_, ?_, ?_, ?_, ?_, ?_⟩⟩
    · exact TInv_set_claim hashFn nkvs k v hinv s
        (probeIdx nkvs.length (hmHash hashFn k.content &&& (nkvs.length - 1)) s)
        rfl hslt hmiss hfree
    · rw [mapVal_set_self k.content nkvs _
        ({ (⟨KeyF.ptr k, hmHash hashFn k.content, ValF.user 0⟩ : Entry) with
          val := ValF.user v }) hilt
        (by rw [slotContent]) (fun j hj _ => hnew j hj)]
      rfl
    · intro c hc2
      refine mapVal_set_irrel c nkvs _ _ ?_ ?_
      · rw [slotContent, hfree]
        intro hq
        cases hq
      · rw [slotContent]
        intro hq
        cases hq
        exact hc2 rfl
    · have hcnt := countP_set liveE nkvs _
        ({ (⟨KeyF.ptr k, hmHash hashFn k.content, ValF.user 0⟩ : Entry) with
          val := ValF.user v }) hilt
      have hl1 : liveE (nkvs.getD (probeIdx nkvs.length
          (hmHash hashFn k.content &&& (nkvs.length - 1)) s) default) = false := by
        rw [liveE, hfree]
      have hl2 : liveE ({ (⟨KeyF.ptr k, hmHash hashFn k.content,
          ValF.user 0⟩ : Entry) with val := ValF.user v }) = true := by
        rw [liveE]
        simp [hvne]
      rw [hl1, hl2] at hcnt
      unfold countLive
      simp at hcnt
      omega
    · intro i2 hi2 k2 hk2
      rw [List.length_set] at hi2
      by_cases hji : i2 = probeIdx nkvs.length
          (hmHash hashFn k.content &&& (nkvs.length - 1)) s
      · rw [hji, hgd2] at hk2 ⊢
        cases hk2
        exact Or.inl ⟨rfl, rfl⟩
      · rw [getD_set_other _ _ _ _ (fun hq => hji hq.symm)]
        exact Or.inr ⟨i2, hi2, rfl⟩
    · intro i2 hi2 v2 hv2
      rw [List.length_set] at hi2
      by_cases hji : i2 = probeIdx nkvs.length
          (hmHash hashFn k.content &&& (nkvs.length - 1)) s
      · rw [hji, hgd2] at hv2
        cases hv2
        exact Or.inl rfl
      · rw [getD_set_other _ _ _ _ (fun hq => hji hq.symm)] at hv2
        exact Or.inr ⟨i2, hi2, hv2⟩
  · obtain ⟨k2, hk2, _, _, hcnt, _⟩ := hmatch
    have hilt : probeIdx nkvs.length (hmHash hashFn k.content &&& (nkvs.length - 1)) s <
        nkvs.length := probeIdx_lt _ _ hpos hstart s
    exact absurd (by rw [slotContent_ptr _ k2 hk2, hcnt]) (hnew _ hilt)

theorem getD_replicate (n i : Nat) :
    (List.replicate n (default : Entry)).getD i default = default := by
  rw [List.getD_eq_getElem?_getD, List.getElem?_replicate]
  split <;> rfl

/-- A freshly zeroed table satisfies all table invariants. -/
theorem TInv_replicate (hashFn : Nat → Nat) (e0 : Nat) :
    TInv hashFn (List.replicate (2 ^ e0) (default : Entry)) := by
  refine ⟨⟨e0, List.length_replicate _ _⟩, ?_, ?_, ?_, ?_, ?_, ?_⟩
  · intro i _
    rw [getD_replicate]
    intro hq
    cases hq
  · intro i _
    rw [getD_replicate]
    intro hq
    cases hq
  · intro i _ k hk
    rw [getD_replicate] at hk
    cases hk
  · intro i _ _
    rw [getD_replicate]
    rfl
  · intro i _ j _ ki kj hki
    rw [getD_replicate] at hki
    cases hki
  · intro i _ k hk
    rw [getD_replicate] at hk
    cases hk

theorem countLive_replicate (n : Nat) :
    countLive (List.replicate n (default : Entry)) = 0 := by
  unfold countLive
  induction n with
  | zero => rfl
  | succ n ih =>
    rw [List.replicate_succ, List.countP_cons]
    simp [ih, liveE]

theorem mapVal_replicate (c n : Nat) :
    mapVal c (List.replicate n (default : Entry)) = 0 := by
  refine mapVal_absent c _ ?_
  intro j _
  rw [getD_replicate, slotContent]
  intro hq
  cases hq

theorem mem_getD (kvs : List Entry) (e : Entry) (h : e ∈ kvs) :
    ∃ i < kvs.length, kvs.getD i default = e := by
  obtain ⟨i, hi, hget⟩ := List.mem_iff_getElem.mp h
  refine ⟨i, hi, ?_⟩
  rw [List.getD_eq_getElem?_getD, List.getElem?_eq_getElem hi]
  exact hget

theorem getD_mem (kvs : List Entry) (i : Nat) (hi : i < kvs.length) :
    kvs.getD i default ∈ kvs := by
  rw [List.getD_eq_getElem?_getD, List.getElem?_eq_getElem hi]
  exact List.getElem_mem hi

theorem liveLookup_none_of_absent (c : Nat) :
    ∀ (es : List Entry),
    (∀ e ∈ es, ∀ k, e.key = KeyF.ptr k → k.content ≠ c) →
    liveLookup c es = none := by
  intro es
  induction es with
  | nil =>
    intro _
    rfl
  | cons e rest ih =>
    intro habs
    rcases hk : e.key with _ | _ | k <;> rcases hv : e.val with _ | v <;>
      simp only [liveLookup, hk, hv]
    all_goals try exact ih (fun e2 he2 => habs e2 (List.mem_cons_of_mem e he2))
    rw [if_neg (by
      rintro ⟨hc, _⟩
      exact habs e (List.mem_cons_self e rest) k hk hc)]
    exact ih (fun e2 he2 => habs e2 (List.mem_cons_of_mem e he2))

/-- Effect of the whole copy pass on a target table none of whose contents
collide with the (pairwise distinct) migrated entries: invariants are
preserved, the map size and change counters are untouched, exactly the live
migrated entries are added, and the abstract mapping of the target becomes
the live mapping of the source overlaid on the old target mapping. -/
theorem copyKvs_effect (hashFn : Nat → Nat) (fuel : Nat) :
    ∀ (es nkvs : List Entry) (ms : MState) (nkvs2 : List Entry) (ms2 : MState),
    copyKvs fuel es nkvs ms = some (nkvs2, ms2) →
    TInv hashFn nkvs →
    (∀ e ∈ es, ∀ k, e.key = KeyF.ptr k → e.hash = hmHash hashFn k.content) →
    List.Pairwise (fun a b => ∀ ka kb, a.key = KeyF.ptr ka → b.key = KeyF.ptr kb →
      ka.content ≠ kb.content) es →
    (∀ e ∈ es, ∀ k, e.key = KeyF.ptr k →
      ∀ j < nkvs.length, slotContent (nkvs.getD j default) ≠ some k.content) →
    TInv hashFn nkvs2 ∧ ms2.size = ms.size ∧ ms2.changes = ms.changes ∧
    countLive nkvs2 = countLive nkvs + es.countP liveE ∧
    (∀ c, mapVal c nkvs2 = (liveLookup c es).getD (mapVal c nkvs)) ∧
    (∀ i2 < nkvs2.length, ∀ v2, (nkvs2.getD i2 default).val = ValF.user v2 →
      v2 = 0 ∨ (∃ e ∈ es, e.val = ValF.user v2) ∨
      ∃ i0 < nkvs.length, (nkvs.getD i0 default).val = ValF.user v2) := by
  intro es
  induction es with
  | nil =>
    intro nkvs ms nkvs2 ms2 h hinv _ _ _
    cases h
    refine ⟨hinv, rfl, rfl, by simp [List.countP_nil], ?_, ?_⟩
    · intro c
      rfl
    · intro i2 hi2 v2 hv2
      exact Or.inr (Or.inr ⟨i2, hi2, hv2⟩)
  | cons e rest ih =>
    intro nkvs ms nkvs2 ms2 h hinv hhash hpair hnewc
    simp only [copyKvs] at h
    split at h
    · cases h
    · rename_i a b heq
      rcases hk : e.key with _ | _ | k
      · -- free slot in the old table: nothing to migrate
        simp only [copySlot, hk] at heq
        cases heq
        obtain ⟨c1, c2, c3, c4, c5, c6⟩ := ih nkvs ms nkvs2 ms2 h hinv
          (fun e2 he2 => hhash e2 (List.mem_cons_of_mem e he2))
          (List.pairwise_cons.mp hpair).2
          (fun e2 he2 => hnewc e2 (List.mem_cons_of_mem e he2))
        refine ⟨c1, c2, c3, ?_, ?_, ?_⟩
        · rw [c4, List.countP_cons]
          have : liveE e = false := by
            rw [liveE, hk]
          rw [this]
          simp
        · intro c
          rw [c5 c]
          have : liveLookup c (e :: rest) = liveLookup c rest := by
            simp only [liveLookup, hk]
          rw [this]
        · intro i2 hi2 v2 hv2
          rcases c6 i2 hi2 v2 hv2 with hz | ⟨e2, he2, hv⟩ | hold
          · exact Or.inl hz
          · exact Or.inr (Or.inl ⟨e2, List.mem_cons_of_mem e he2, hv⟩)
          · exact Or.inr (Or.inr hold)
      · -- a SIZED key cannot be copied
        simp only [copySlot, hk] at heq
        cases heq
      · rcases hv : e.val with _ | v
        · simp only [copySlot, hk, hv] at heq
          cases heq
        · simp only [copySlot, hk, hv] at heq
          rcases hgo : _putifGo true fuel nkvs ms k e.hash v (OldV.user 0) with _ |
            ⟨⟨nkvs3, ms3, out3⟩⟩
          · rw [hgo] at heq
            cases heq
          · simp only [hgo] at heq
            rw [hhash e (List.mem_cons_self e rest) k hk] at hgo
            have heffect := _putifGo_true_effect hashFn fuel nkvs ms k v nkvs3 ms3 out3
              hinv (fun j hj => hnewc e (List.mem_cons_self e rest) k hk j hj) hgo
            obtain ⟨hms3, hsub⟩ := heffect
            rcases hsub with ⟨hv0, hout, hnk⟩ | ⟨hvne, houtne, hinv3, hmset, hmother,
              hcnt3, hkeyid, hvals3⟩
            · -- tombstone: DELETED, key freed, target unchanged
              rw [hout] at heq
              rw [if_pos rfl] at heq
              cases heq
              subst hnk
              subst hms3
              obtain ⟨c1, c2, c3, c4, c5, c6⟩ := ih a _ nkvs2 ms2 h hinv
                (fun e2 he2 => hhash e2 (List.mem_cons_of_mem e he2))
                (List.pairwise_cons.mp hpair).2
                (fun e2 he2 => hnewc e2 (List.mem_cons_of_mem e he2))
              refine ⟨c1, by rw [c2], by rw [c3], ?_, ?_, ?_⟩
              · rw [c4, List.countP_cons]
                have : liveE e = false := by
                  rw [liveE, hk, hv, hv0]
                  rfl
                rw [this]
                simp
              · intro c
                rw [c5 c]
                have : liveLookup c (e :: rest) = liveLookup c rest := by
                  simp only [liveLookup, hk, hv, hv0]
                  rw [if_neg (by rintro ⟨_, hq⟩; exact hq rfl)]
                rw [this]
              · intro i2 hi2 v2 hv2
                rcases c6 i2 hi2 v2 hv2 with hz | ⟨e2, he2, hve⟩ | hold
                · exact Or.inl hz
                · exact Or.inr (Or.inl ⟨e2, List.mem_cons_of_mem e he2, hve⟩)
                · exact Or.inr (Or.inr hold)
            · -- live entry: claimed a fresh slot in the target
              rw [if_neg houtne] at heq
              cases heq
              subst hms3
              have hnewc3 : ∀ e2 ∈ rest, ∀ k2, e2.key = KeyF.ptr k2 →
                  ∀ j < a.length, slotContent (a.getD j default) ≠
                    some k2.content := by
                intro e2 he2 k2 hk2 j hj
                rcases hk3 : (a.getD j default).key with _ | _ | k3
                · rw [slotContent, hk3]
                  intro hq
                  cases hq
                · rw [slotContent, hk3]
                  intro hq
                  cases hq
                · rw [slotContent_ptr _ k3 hk3]
                  intro hq
                  injection hq with hq2
                  rcases hkeyid j hj k3 hk3 with ⟨hk3k, _⟩ | ⟨i0, hi0, hi0e⟩
                  · subst hk3k
                    exact (List.pairwise_cons.mp hpair).1 e2 he2 k3 k2 hk hk2 hq2
                  · refine hnewc e2 (List.mem_cons_of_mem e he2) k2 hk2 i0 hi0 ?_
                    rw [hi0e, slotContent_ptr _ k3 hk3, hq2]
              obtain ⟨c1, c2, c3, c4, c5, c6⟩ := ih a _ nkvs2 ms2 h hinv3
                (fun e2 he2 => hhash e2 (List.mem_cons_of_mem e he2))
                (List.pairwise_cons.mp hpair).2
                hnewc3
              refine ⟨c1, by rw [c2], by rw [c3], ?_, ?_, ?_⟩
              · rw [c4, hcnt3, List.countP_cons]
                have : liveE e = true := by
                  rw [liveE, hk, hv]
                  simp [hvne]
                rw [this]
                simp
                omega
              · intro c
                by_cases hcc : c = k.content
                · subst hcc
                  have hrest : liveLookup k.content rest = none := by
                    refine liveLookup_none_of_absent k.content rest ?_
                    intro e2 he2 k2 hk2
                    exact fun hq =>
                      (List.pairwise_cons.mp hpair).1 e2 he2 k k2 hk hk2 hq.symm
                  have hhead : liveLookup k.content (e :: rest) = some v := by
                    simp only [liveLookup, hk, hv]
                    rw [if_pos ⟨by trivial, hvne⟩]
                  rw [c5 k.content, hrest, hhead]
                  simp
                  exact hmset
                · have hhead : liveLookup c (e :: rest) = liveLookup c rest := by
                    simp only [liveLookup, hk, hv]
                    rw [if_neg (by rintro ⟨hq, _⟩; exact hcc hq.symm)]
                  rw [c5 c, hhead, hmother c hcc]
              · intro i2 hi2 v2 hv2
                rcases c6 i2 hi2 v2 hv2 with hz | ⟨e2, he2, hve⟩ | ⟨i0, hi0, hiv⟩
                · exact Or.inl hz
                · exact Or.inr (Or.inl ⟨e2, List.mem_cons_of_mem e he2, hve⟩)
                · rcases hvals3 i0 hi0 v2 hiv with hvv | ⟨i1, hi1, hiv1⟩
                  · refine Or.inr (Or.inl ⟨e, List.mem_cons_self e rest, ?_⟩)
                    rw [hv, hvv]
                  · exact Or.inr (Or.inr ⟨i1, hi1, hiv1⟩)

theorem getD_eq_getElem (kvs : List Entry) (i : Nat) (hi : i < kvs.length) :
    kvs.getD i default = kvs[i] := by
  rw [List.getD_eq_getElem?_getD, List.getElem?_eq_getElem hi]
  rfl

/-- The no-duplicate invariant as a pairwise property of the slot list. -/
theorem TInv_pairwise (hashFn : Nat → Nat) (kvs : List Entry) (hinv : TInv hashFn kvs) :
    List.Pairwise (fun a b => ∀ ka kb, a.key = KeyF.ptr ka → b.key = KeyF.ptr kb →
      ka.content ≠ kb.content) kvs := by
  rw [List.pairwise_iff_getElem]
  intro i j hi hj hij ka kb hka hkb hq
  have hia := getD_eq_getElem kvs i hi
  have hjb := getD_eq_getElem kvs j hj
  have := hinv.noDup i hi j hj ka kb (by rw [hia]; exact hka) (by rw [hjb]; exact hkb) hq
  omega

/-- On a slot list without SIZED values and with pairwise-distinct key
contents, the live lookup agrees with the abstract mapping (with default 0
for an absent or tombstoned content). -/
theorem liveLookup_mapVal (c : Nat) :
    ∀ (kvs : List Entry),
    (∀ i < kvs.length, (kvs.getD i default).val ≠ ValF.sized) →
    List.Pairwise (fun a b => ∀ ka kb, a.key = KeyF.ptr ka → b.key = KeyF.ptr kb →
      ka.content ≠ kb.content) kvs →
    (liveLookup c kvs).getD 0 = mapVal c kvs := by
  intro kvs
  induction kvs with
  | nil =>
    intro _ _
    rfl
  | cons e es ih =>
    intro hnsz hpair
    have hnsz2 : ∀ i < es.length, (es.getD i default).val ≠ ValF.sized := by
      intro i hi
      have := hnsz (i + 1) (by simpa using hi)
      rwa [getD_cons_succ] at this
    rcases hk : e.key with _ | _ | k
    · have hfs : findSlot c (e :: es) = findSlot c es := by
        show (if slotContent e = some c then some e else findSlot c es) = findSlot c es
        rw [if_neg (by rw [slotContent, hk]; intro hq; cases hq)]
      have hmv : mapVal c (e :: es) = mapVal c es := by
        unfold mapVal
        rw [hfs]
      rw [hmv]
      simp only [liveLookup, hk]
      exact ih hnsz2 (List.pairwise_cons.mp hpair).2
    · have hfs : findSlot c (e :: es) = findSlot c es := by
        show (if slotContent e = some c then some e else findSlot c es) = findSlot c es
        rw [if_neg (by rw [slotContent, hk]; intro hq; cases hq)]
      have hmv : mapVal c (e :: es) = mapVal c es := by
        unfold mapVal
        rw [hfs]
      rw [hmv]
      simp only [liveLookup, hk]
      exact ih hnsz2 (List.pairwise_cons.mp hpair).2
    · rcases hv : e.val with _ | v
      · exact absurd (by rw [getD_cons_zero, hv] : ((e :: es).getD 0 default).val = ValF.sized)
          (hnsz 0 (by simp))
      · by_cases hc : k.content = c
        · have hfs : findSlot c (e :: es) = some e := by
            show (if slotContent e = some c then some e else findSlot c es) = some e
            rw [if_pos (by rw [slotContent_ptr e k hk, hc])]
          have hmv : mapVal c (e :: es) = v := by
            unfold mapVal
            simp only [hfs]
            rw [hv]
            rfl
          rw [hmv]
          simp only [liveLookup, hk, hv]
          by_cases hvz : v = 0
          · rw [if_neg (by rintro ⟨_, hq⟩; exact hq hvz)]
            have habs : liveLookup c es = none := by
              refine liveLookup_none_of_absent c es ?_
              intro e2 he2 k2 hk2 hq
              exact (List.pairwise_cons.mp hpair).1 e2 he2 k k2 hk hk2 (by rw [hc, ← hq])
            rw [habs, hvz]
            rfl
          · rw [if_pos ⟨hc, hvz⟩]
            rfl
        · have hfs : findSlot c (e :: es) = findSlot c es := by
            show (if slotContent e = some c then some e else findSlot c es) = findSlot c es
            rw [if_neg (by
              rw [slotContent_ptr e k hk]
              intro hq
              injection hq with hq2
              exact hc hq2)]
          have hmv : mapVal c (e :: es) = mapVal c es := by
            unfold mapVal
            rw [hfs]
          rw [hmv]
          simp only [liveLookup, hk, hv]
          rw [if_neg (by rintro ⟨hq, _⟩; exact hc hq)]
          exact ih hnsz2 (List.pairwise_cons.mp hpair).2

/-- Effect of a whole sequential `_resize` on an invariant table: the new
table satisfies the invariants, holds exactly the same abstract mapping and
live count, the size counter is untouched, `changes` is reset, and every
slot value of the new table is null or was present in the old table. -/
theorem _resize_effect (hashFn : Nat → Nat) (fuel : Nat) (okvs : List Entry)
    (ms : MState) (nkvs2 : List Entry) (ms2 : MState)
    (hinv : TInv hashFn okvs)
    (h : _resize fuel okvs ms = some (nkvs2, ms2)) :
    TInv hashFn nkvs2 ∧ ms2.size = ms.size ∧ ms2.changes = 0 ∧
    countLive nkvs2 = countLive okvs ∧
    (∀ c, mapVal c nkvs2 = mapVal c okvs) ∧
    (∀ i2 < nkvs2.length, ∀ v2, (nkvs2.getD i2 default).val = ValF.user v2 →
      v2 = 0 ∨ ∃ i0 < okvs.length, (okvs.getD i0 default).val = ValF.user v2) := by
  obtain ⟨e0, hpow⟩ := hinv.pow
  simp only [_resize] at h
  split at h
  · cases h
  · rename_i nkvs3 ms3 heq
    cases h
    have hrep : ∃ e1, (if sameLenCond okvs.length ms then
          List.replicate okvs.length (default : Entry)
        else List.replicate (2 * okvs.length) (default : Entry)) =
        List.replicate (2 ^ e1) (default : Entry) := by
      split
      · exact ⟨e0, by rw [hpow]⟩
      · exact ⟨e0 + 1, by rw [hpow, pow_succ, Nat.mul_comm]⟩
    obtain ⟨e1, hrep⟩ := hrep
    rw [hrep] at heq
    have hc := copyKvs_effect hashFn fuel okvs (List.replicate (2 ^ e1) default)
      ms nkvs2 ms3 heq (TInv_replicate hashFn e1)
      (by
        intro e2 he2 k hk
        obtain ⟨i, hi, hie⟩ := mem_getD okvs e2 he2
        have := hinv.hashOk i hi k (by rw [hie]; exact hk)
        rwa [hie] at this)
      (TInv_pairwise hashFn okvs hinv)
      (by
        intro e2 _ k _ j _
        rw [getD_replicate, slotContent]
        intro hq
        cases hq)
    obtain ⟨c1, c2, c3, c4, c5, c6⟩ := hc
    refine ⟨c1, c2, rfl, ?_, ?_, ?_⟩
    · rw [c4, countLive_replicate]
      simp [countLive]
    · intro c
      rw [c5 c, mapVal_replicate]
      exact liveLookup_mapVal c okvs hinv.noSizedV (TInv_pairwise hashFn okvs hinv)
    · intro i2 hi2 v2 hv2
      rcases c6 i2 hi2 v2 hv2 with hz | ⟨e2, he2, hve⟩ | ⟨i0, hi0, hiv⟩
      · exact Or.inl hz
      · obtain ⟨i, hi, hie⟩ := mem_getD okvs e2 he2
        exact Or.inr ⟨i, hi, by rw [hie]; exact hve⟩
      · rw [getD_replicate] at hiv
        cases hiv
        exact Or.inl rfl

/-- Effect of one full `_putif` call (probe, update, and the reprobe-limit
resize tail call) on an invariant table: invariants, the size/live-count
relation and value provenance always hold afterwards; the result is either
SIZED with the whole abstract mapping preserved (resize path), or the prior
mapping of the key content together with the CAS update semantics. -/
theorem _putif_effect (hashFn : Nat → Nat) (fuel : Nat) (kvs : List Entry)
    (ms : MState) (key : KeyPtr) (val : Nat) (oldval : OldV) (kvs2 : List Entry)
    (ms2 : MState) (out : PutOut) (hinv : TInv hashFn kvs)
    (h : _putif fuel kvs ms key (hmHash hashFn key.content) val oldval =
      some (kvs2, ms2, out)) :
    TInv hashFn kvs2 ∧
    (ms2.size - ms.size = (countLive kvs2 : Int) - (countLive kvs : Int)) ∧
    (∀ i2 < kvs2.length, ∀ v2, (kvs2.getD i2 default).val = ValF.user v2 →
      v2 = 0 ∨ v2 = val ∨ ∃ i0 < kvs.length, (kvs.getD i0 default).val = ValF.user v2) ∧
    ((out = PutOut.sized ∧ (∀ c, mapVal c kvs2 = mapVal c kvs)) ∨
     (out = PutOut.val (mapVal key.content kvs) ∧
      ((oldval = OldV.ignore ∨ oldval = OldV.user (mapVal key.content kvs)) →
        mapVal key.content kvs2 = val) ∧
      ((oldval ≠ OldV.ignore ∧ oldval ≠ OldV.user (mapVal key.content kvs)) →
        mapVal key.content kvs2 = mapVal key.content kvs) ∧
      (∀ c, c ≠ key.content → mapVal c kvs2 = mapVal c kvs))) := by
  rcases hgo : _putifGo false fuel kvs ms key (hmHash hashFn key.content) val oldval with
    _ | ⟨⟨a, b, o⟩⟩
  · rw [_putif, hgo] at h
    cases h
  · have heffect := _putifGo_false_effect hashFn fuel kvs ms key val oldval a b o hinv hgo
    rcases o with _ | _ | _ | v0
    · -- a SIZED probe result is impossible on an invariant table
      rcases heffect with ⟨hq, _⟩ | ⟨_, hq, _⟩ <;> cases hq
    · -- DELETED is impossible outside resize-copy mode
      rcases heffect with ⟨hq, _⟩ | ⟨_, hq, _⟩ <;> cases hq
    · -- reprobe limit: the table and state are unchanged, resize runs inline
      rcases heffect with ⟨_, hkq, hmq⟩ | ⟨_, hq, _⟩
      · rw [_putif, hgo] at h
        rcases hrs : _resize fuel kvs ms with _ | ⟨⟨kvs3, ms3⟩⟩
        · rw [hrs] at h
          cases h
        · rw [hrs] at h
          cases h
          obtain ⟨r1, r2, r3, r4, r5, r6⟩ := _resize_effect hashFn fuel kvs ms kvs2 ms2
            hinv hrs
          refine ⟨r1, by rw [r2, r4]; simp, ?_, Or.inl ⟨rfl, r5⟩⟩
          intro i2 hi2 v2 hv2
          rcases r6 i2 hi2 v2 hv2 with hz | hold
          · exact Or.inl hz
          · exact Or.inr (Or.inr hold)
      · cases hq
    · -- a value result: the probe-and-update attempt is the whole call
      rw [_putif, hgo] at h
      cases h
      rcases heffect with ⟨hq, _⟩ | ⟨h1, h2, h3, h4, h5, h6, _, h8⟩
      · cases hq
      · refine ⟨h1, h6, ?_, Or.inr ⟨h2, h3, h4, h5⟩⟩
        intro i2 hi2 v2 hv2
        rcases h8 i2 hi2 v2 hv2 with hval | hold
        · exact Or.inr (Or.inl hval)
        · exact Or.inr (Or.inr hold)


/-- Effect of the public put retry loop on an invariant map: when it returns,
the result is the abstract prior mapping of the key content in the map the
caller passed in, the final map satisfies the invariants, and the CAS update
semantics, the size/live-count relation and value provenance hold relative to
the caller's map (every SIZED retry step preserves the whole abstract
mapping). -/
theorem putifLoop_effect (hashFn : Nat → Nat) (pf : Nat) (key : KeyPtr) (val : Nat)
    (oldval : OldV) :
    ∀ (tries : Nat) (m m2 : HM) (out : PutOut),
    putifLoop pf key (hmHash hashFn key.content) val oldval tries m = some (m2, out) →
    TInv hashFn m.kvs →
    TInv hashFn m2.kvs ∧
    out = PutOut.val (mapVal key.content m.kvs) ∧
    ((oldval = OldV.ignore ∨ oldval = OldV.user (mapVal key.content m.kvs)) →
      mapVal key.content m2.kvs = val) ∧
    ((oldval ≠ OldV.ignore ∧ oldval ≠ OldV.user (mapVal key.content m.kvs)) →
      mapVal key.content m2.kvs = mapVal key.content m.kvs) ∧
    (∀ c, c ≠ key.content → mapVal c m2.kvs = mapVal c m.kvs) ∧
    (m2.ms.size - m.ms.size = (countLive m2.kvs : Int) - (countLive m.kvs : Int)) ∧
    (∀ i2 < m2.kvs.length, ∀ v2, (m2.kvs.getD i2 default).val = ValF.user v2 →
      v2 = 0 ∨ v2 = val ∨ ∃ i0 < m.kvs.length, (m.kvs.getD i0 default).val = ValF.user v2) := by
  intro tries
  induction tries with
  | zero =>
    intro m m2 out h
    cases h
  | succ tries ih =>
    intro m m2 out h hinv
    rcases hp : _putif pf m.kvs m.ms key (hmHash hashFn key.content) val oldval with
      _ | ⟨⟨kvsb, msb, ob⟩⟩
    · simp only [putifLoop, hp] at h
      cases h
    · obtain ⟨p1, p2, p3, p4⟩ := _putif_effect hashFn pf m.kvs m.ms key val oldval
        kvsb msb ob hinv hp
      rcases ob with _ | _ | _ | v0
      · -- SIZED: help the resize (if needed) and retry on the new table
        rcases p4 with ⟨_, pmap⟩ | ⟨hq, _⟩
        · simp only [putifLoop, hp] at h
          split at h
          · -- the table was not replaced: help by resizing, then retry
            rcases hrs : _resize pf kvsb msb with _ | ⟨⟨kvs3, ms3⟩⟩
            · rw [hrs] at h
              cases h
            · rw [hrs] at h
              obtain ⟨r1, r2, r3, r4, r5, r6⟩ := _resize_effect hashFn pf kvsb msb
                kvs3 ms3 p1 hrs
              obtain ⟨c1, c2, c3, c4, c5, c6, c7⟩ := ih ⟨kvs3, ms3⟩ m2 out h r1
              have hmv3 : ∀ c, mapVal c kvs3 = mapVal c m.kvs :=
                fun c => (r5 c).trans (pmap c)
              refine ⟨c1, ?_, ?_, ?_, ?_, ?_, ?_⟩
              · rw [c2]
                show PutOut.val (mapVal key.content kvs3) = _
                rw [hmv3 key.content]
              · intro hov
                exact c3 (by
                  show oldval = OldV.ignore ∨ oldval = OldV.user (mapVal key.content kvs3)
                  rw [hmv3 key.content]
                  exact hov)
              · intro hov
                have h4 := c4 (by
                  show oldval ≠ OldV.ignore ∧ oldval ≠ OldV.user (mapVal key.content kvs3)
                  rw [hmv3 key.content]
                  exact hov)
                rw [h4]
                exact hmv3 key.content
              · intro c hc
                rw [c5 c hc]
                exact hmv3 c
              · have hsz6 : m2.ms.size - (ms3.size : Int) =
                    (countLive m2.kvs : Int) - (countLive kvs3 : Int) := c6
                have := p2
                have := r2
                have := r4
                omega
              · intro i2 hi2 v2 hv2
                rcases c7 i2 hi2 v2 hv2 with hz | hval | ⟨i0, hi0, hiv⟩
                · exact Or.inl hz
                · exact Or.inr (Or.inl hval)
                · rcases r6 i0 hi0 v2 hiv with hz | ⟨i1, hi1, hiv1⟩
                  · exact Or.inl hz
                  · exact p3 i1 hi1 v2 hiv1
          · -- the resize already replaced the table: just retry on it
            obtain ⟨c1, c2, c3, c4, c5, c6, c7⟩ := ih ⟨kvsb, msb⟩ m2 out h p1
            refine ⟨c1, ?_, ?_, ?_, ?_, ?_, ?_⟩
            · rw [c2]
              show PutOut.val (mapVal key.content kvsb) = _
              rw [pmap key.content]
            · intro hov
              exact c3 (by
                show oldval = OldV.ignore ∨ oldval = OldV.user (mapVal key.content kvsb)
                rw [pmap key.content]
                exact hov)
            · intro hov
              have h4 := c4 (by
                show oldval ≠ OldV.ignore ∧ oldval ≠ OldV.user (mapVal key.content kvsb)
                rw [pmap key.content]
                exact hov)
              rw [h4]
              exact pmap key.content
            · intro c hc
              rw [c5 c hc]
              exact pmap c
            · have hsz6 : m2.ms.size - (msb.size : Int) =
                  (countLive m2.kvs : Int) - (countLive kvsb : Int) := c6
              have := p2
              omega
            · intro i2 hi2 v2 hv2
              rcases c7 i2 hi2 v2 hv2 with hz | hval | ⟨i0, hi0, hiv⟩
              · exact Or.inl hz
              · exact Or.inr (Or.inl hval)
              · exact p3 i0 hi0 v2 hiv
        · cases hq
      · -- DELETED cannot escape a non-resize-mode call
        rcases p4 with ⟨hq, _⟩ | ⟨hq, _⟩ <;> cases hq
      · -- the reprobe-limit exit is consumed inside `_putif`
        rcases p4 with ⟨hq, _⟩ | ⟨hq, _⟩ <;> cases hq
      · -- a value result ends the loop
        simp only [putifLoop, hp] at h
        cases h
        rcases p4 with ⟨hq, _⟩ | ⟨hval, hsucc, hfail, hother⟩
        · cases hq
        · exact ⟨p1, hval, hsucc, hfail, hother, p2, p3⟩

/-- The `_get` probe loop is fuel-monotone: a result obtained with some fuel
is also obtained with any larger fuel (the loop is bounded by its own reprobe
counter, not by the fuel). -/
theorem getLoop_some_mono (c hash : Nat) (kvs : List Entry) :
    ∀ (n idx j : Nat) (r : PutOut), getLoop c hash n kvs idx j = some r →
    ∀ n', n ≤ n' → getLoop c hash n' kvs idx j = some r := by
  intro n
  induction n with
  | zero =>
    intro idx j r h
    cases h
  | succ n ih =>
    intro idx j r h n' hn'
    obtain ⟨n2, rfl⟩ : ∃ n2, n' = n2 + 1 := ⟨n' - 1, by omega⟩
    rcases hk : (kvs.getD idx default).key with _ | _ | k
    · simp only [getLoop, hk] at h ⊢
      exact h
    · simp only [getLoop, hk] at h ⊢
      exact h
    · simp only [getLoop, hk] at h ⊢
      split_ifs at h ⊢ <;> first | exact h | exact ih _ _ _ h n2 (by omega)

/-- Under the table invariants, any terminating `_get` (whatever its fuel)
returns the abstract mapping of the queried content. -/
theorem _get_getVal (hashFn : Nat → Nat) (pf : Nat) (kvs : List Entry) (c : Nat)
    (hinv : TInv hashFn kvs) (r : PutOut)
    (h : _get pf kvs c (hmHash hashFn c) = some r) :
    r = PutOut.val (mapVal c kvs) := by
  have h1 : getLoop c (hmHash hashFn c) pf kvs
      (hmHash hashFn c &&& (kvs.length - 1)) 0 = some r := h
  have h2 : getLoop c (hmHash hashFn c) kvs.length kvs
      (hmHash hashFn c &&& (kvs.length - 1)) 0 = some (PutOut.val (mapVal c kvs)) :=
    getVal_eq hashFn kvs c hinv
  have h1m := getLoop_some_mono c (hmHash hashFn c) kvs pf _ _ r h1
    (max pf kvs.length) (le_max_left _ _)
  have h2m := getLoop_some_mono c (hmHash hashFn c) kvs kvs.length _ _ _ h2
    (max pf kvs.length) (le_max_right _ _)
  rw [h1m] at h2m
  exact Option.some.inj h2m

/-- Effect of the public get retry loop on an invariant map: under the table
invariants the probe can only return a plain value (never SIZED), so the loop
returns on its first attempt with the abstract mapping of the content, and the
map is untouched. -/
theorem getRetry_effect (hashFn : Nat → Nat) (pf : Nat) (c : Nat) :
    ∀ (tries : Nat) (m m2 : HM) (out : PutOut),
    getRetry pf c (hmHash hashFn c) tries m = some (m2, out) →
    TInv hashFn m.kvs →
    TInv hashFn m2.kvs ∧
    out = PutOut.val (mapVal c m.kvs) ∧
    (∀ c2, mapVal c2 m2.kvs = mapVal c2 m.kvs) ∧
    m2.ms.size = m.ms.size ∧ countLive m2.kvs = countLive m.kvs ∧
    (∀ i2 < m2.kvs.length, ∀ v2, (m2.kvs.getD i2 default).val = ValF.user v2 →
      ∃ i0 < m.kvs.length, (m.kvs.getD i0 default).val = ValF.user v2) := by
  intro tries
  cases tries with
  | zero =>
    intro m m2 out h
    cases h
  | succ tries =>
    intro m m2 out h hinv
    rcases hg : _get pf m.kvs c (hmHash hashFn c) with _ | r0
    · simp only [getRetry, hg] at h
      cases h
    · have hr0 := _get_getVal hashFn pf m.kvs c hinv r0 hg
      subst hr0
      simp only [getRetry, hg] at h
      cases h
      exact ⟨hinv, rfl, fun _ => rfl, rfl, rfl, fun i2 hi2 v2 hv2 => ⟨i2, hi2, hv2⟩⟩

/-- Every slot value of the table is null or a member of `vals` (the values
of the puts performed so far). -/
def ValsOK (vals : List Nat) (kvs : List Entry) : Prop :=
  ∀ i < kvs.length, ∀ v, (kvs.getD i default).val = ValF.user v → v = 0 ∨ v ∈ vals

theorem ValsOK_mono (vals vals2 : List Nat) (kvs : List Entry)
    (hsub : ∀ x ∈ vals, x ∈ vals2) (h : ValsOK vals kvs) : ValsOK vals2 kvs := by
  intro i hi v hv
  rcases h i hi v hv with hz | hm
  · exact Or.inl hz
  · exact Or.inr (hsub v hm)

/-- The abstract mapping only produces null or a stored slot value. -/
theorem mapVal_ValsOK (vals : List Nat) (kvs : List Entry) (c : Nat)
    (h : ValsOK vals kvs) : mapVal c kvs = 0 ∨ mapVal c kvs ∈ vals := by
  unfold mapVal
  rcases hfind : findSlot c kvs with _ | e
  · exact Or.inl rfl
  · obtain ⟨j, hj, hje, _⟩ := findSlot_idx c kvs e hfind
    rcases hv : e.val with _ | v
    · left
      show valNat e.val = 0
      rw [hv]
      rfl
    · have := h j hj v (by rw [hje]; exact hv)
      rcases this with hz | hm
      · left
        show valNat e.val = 0
        rw [hv]
        exact hz
      · right
        show valNat e.val ∈ vals
        rw [hv]
        exact hm

/-- The run invariant: after any prefix of public operations on a map whose
table satisfies the invariants with size = live count and value provenance,
the same holds, accumulating the values of the processed puts. -/
theorem runFrom_inv (hashFn : Nat → Nat) (pf : Nat) :
    ∀ (ops : List Op) (vals : List Nat) (m m2 : HM),
    runFrom hashFn pf m ops = some m2 →
    TInv hashFn m.kvs → m.ms.size = (countLive m.kvs : Int) → ValsOK vals m.kvs →
    TInv hashFn m2.kvs ∧ m2.ms.size = (countLive m2.kvs : Int) ∧
    ValsOK (putVals ops ++ vals) m2.kvs := by
  intro ops
  induction ops with
  | nil =>
    intro vals m m2 h hinv hsz hvals
    cases h
    refine ⟨hinv, hsz, ?_⟩
    show ValsOK ([] ++ vals) m.kvs
    rw [List.nil_append]
    exact hvals
  | cons op ops ih =>
    intro vals m m2 h hinv hsz hvals
    simp only [runFrom] at h
    split at h
    · cases h
    · rename_i m1 hstep
      rcases op with c | ⟨kid, cc, v, ov⟩
      · -- a lookup leaves the map as it was (a resize retry cannot occur)
        simp only [step] at hstep
        rcases hg : hashmap_get hashFn pf m c with _ | ⟨⟨mg, rg⟩⟩
        · rw [hg] at hstep
          cases hstep
        · rw [hg] at hstep
          cases hstep
          have hg2 : getRetry pf c (hmHash hashFn c) pf m = some (mg, rg) := hg
          obtain ⟨g1, _, _, g4, g5, g6⟩ := getRetry_effect hashFn pf c pf m mg rg hg2 hinv
          have hvg : ValsOK vals mg.kvs := by
            intro i2 hi2 v2 hv2
            obtain ⟨i0, hi0, hiv⟩ := g6 i2 hi2 v2 hv2
            exact hvals i0 hi0 v2 hiv
          have hszg : mg.ms.size = (countLive mg.kvs : Int) := by
            rw [g4, g5]
            exact hsz
          obtain ⟨d1, d2, d3⟩ := ih vals mg m2 h g1 hszg hvg
          exact ⟨d1, d2, by
            show ValsOK (putVals (Op.get c :: ops) ++ vals) m2.kvs
            rw [show putVals (Op.get c :: ops) = putVals ops from rfl]
            exact d3⟩
      · -- a conditional put: compose the put effect with the tail run
        simp only [step] at hstep
        rcases hpt : hashmap_putif hashFn pf m ⟨kid, cc⟩ v ov with _ | ⟨⟨mp, rp⟩⟩
        · rw [hpt] at hstep
          cases hstep
        · rw [hpt] at hstep
          cases hstep
          have hpt2 : putifLoop pf ⟨kid, cc⟩
              (hmHash hashFn (⟨kid, cc⟩ : KeyPtr).content) v ov pf m = some (mp, rp) := hpt
          obtain ⟨c1, _, _, _, _, c6, c7⟩ := putifLoop_effect hashFn pf ⟨kid, cc⟩ v ov
            pf m mp rp hpt2 hinv
          have hvp : ValsOK (v :: vals) mp.kvs := by
            intro i2 hi2 v2 hv2
            rcases c7 i2 hi2 v2 hv2 with hz | hvv | ⟨i0, hi0, hiv⟩
            · exact Or.inl hz
            · exact Or.inr (by rw [hvv]; exact List.mem_cons_self v vals)
            · rcases hvals i0 hi0 v2 hiv with hz | hm
              · exact Or.inl hz
              · exact Or.inr (List.mem_cons_of_mem v hm)
          have hszp : mp.ms.size = (countLive mp.kvs : Int) := by
            have := c6
            omega
          obtain ⟨d1, d2, d3⟩ := ih (v :: vals) mp m2 h c1 hszp hvp
          refine ⟨d1, d2, ?_⟩
          show ValsOK (putVals (Op.putif kid cc v ov :: ops) ++ vals) m2.kvs
          rw [show putVals (Op.putif kid cc v ov :: ops) = v :: putVals ops from rfl]
          refine ValsOK_mono _ _ _ ?_ d3
          intro x hx
          simp only [List.mem_append, List.mem_cons] at hx ⊢
          tauto

/-- The run invariant from a fresh map. -/
theorem run_inv (hashFn : Nat → Nat) (pf : Nat) (ops : List Op) (m : HM)
    (h : run hashFn pf ops = some m) :
    TInv hashFn m.kvs ∧ m.ms.size = (countLive m.kvs : Int) ∧
    ValsOK (putVals ops) m.kvs := by
  have h0 : TInv hashFn hashmap_new.kvs := by
    show TInv hashFn (List.replicate INITIAL_SIZE default)
    rw [show (List.replicate INITIAL_SIZE (default : Entry)) =
      List.replicate (2 ^ 2) default from rfl]
    exact TInv_replicate hashFn 2
  have hsz : hashmap_new.ms.size = (countLive hashmap_new.kvs : Int) := by
    show (0 : Int) = (countLive (List.replicate INITIAL_SIZE default) : Int)
    rw [countLive_replicate]
    rfl
  have hvk : ValsOK [] hashmap_new.kvs := by
    intro i hi v hv
    rw [show hashmap_new.kvs = List.replicate INITIAL_SIZE default from rfl,
      getD_replicate] at hv
    cases hv
    exact Or.inl rfl
  obtain ⟨a, b, cvo⟩ := runFrom_inv hashFn pf ops [] hashmap_new m h h0 hsz hvk
  rw [List.append_nil] at cvo
  exact ⟨a, b, cvo⟩

/-- C1: for every key `k`, value `v_new` and constraint `v_old ≠ IGNORE`, a
`putif(k, v_new, v_old)` call on a reachable map performs the value CAS if
and only if the mapping of `k.content` immediately before the call (the value
`get` observes) equals `v_old`; the call returns that prior value, and on
failure the mapping observable through `get` is unchanged. -/
theorem claim_C1 (hashFn : Nat → Nat) (pf : Nat) (ops : List Op) (m : HM)
    (key : KeyPtr) (v w : Nat) (m2 : HM) (r : PutOut)
    (hrun : run hashFn pf ops = some m)
    (hput : hashmap_putif hashFn pf m key v (OldV.user w) = some (m2, r)) :
    r = PutOut.val (mapVal key.content m.kvs) ∧
    getVal hashFn m.kvs key.content = some (PutOut.val (mapVal key.content m.kvs)) ∧
    (mapVal key.content m.kvs = w →
      mapVal key.content m2.kvs = v ∧
      getVal hashFn m2.kvs key.content = some (PutOut.val v)) ∧
    (mapVal key.content m.kvs ≠ w →
      mapVal key.content m2.kvs = mapVal key.content m.kvs ∧
      getVal hashFn m2.kvs key.content =
        some (PutOut.val (mapVal key.content m.kvs))) := by
  obtain ⟨hinv, _, _⟩ := run_inv hashFn pf ops m hrun
  have hput2 : putifLoop pf key (hmHash hashFn key.content) v (OldV.user w) pf m =
      some (m2, r) := hput
  obtain ⟨c1, c2, c3, c4, _⟩ :=
    putifLoop_effect hashFn pf key v (OldV.user w) pf m m2 r hput2 hinv
  refine ⟨c2, getVal_eq hashFn m.kvs key.content hinv, ?_, ?_⟩
  · intro hw
    have hm2 : mapVal key.content m2.kvs = v := c3 (Or.inr (by rw [hw]))
    exact ⟨hm2, by rw [getVal_eq hashFn m2.kvs key.content c1, hm2]⟩
  · intro hw
    have hne1 : (OldV.user w : OldV) ≠ OldV.ignore := by
      intro hq
      cases hq
    have hne2 : (OldV.user w : OldV) ≠ OldV.user (mapVal key.content m.kvs) := by
      intro hq
      injection hq with hq2
      exact hw hq2.symm
    have hm2 := c4 ⟨hne1, hne2⟩
    exact ⟨hm2, by rw [getVal_eq hashFn m2.kvs key.content c1, hm2]⟩

def wMap1 : HM := (run (fun c => c) 64 [Op.putif 1 5 7 OldV.ignore]).getD hashmap_new

def wPut1 : HM × PutOut :=
  (hashmap_putif (fun c => c) 64 wMap1 ⟨2, 5⟩ 9 (OldV.user 3)).getD
    (hashmap_new, PutOut.val 0)

theorem claim_C1_witness :
    wPut1.2 = PutOut.val (mapVal 5 wMap1.kvs) ∧
    getVal (fun c => c) wMap1.kvs 5 = some (PutOut.val (mapVal 5 wMap1.kvs)) ∧
    (mapVal 5 wMap1.kvs = 3 →
      mapVal 5 wPut1.1.kvs = 9 ∧
      getVal (fun c => c) wPut1.1.kvs 5 = some (PutOut.val 9)) ∧
    (mapVal 5 wMap1.kvs ≠ 3 →
      mapVal 5 wPut1.1.kvs = mapVal 5 wMap1.kvs ∧
      getVal (fun c => c) wPut1.1.kvs 5 = some (PutOut.val (mapVal 5 wMap1.kvs))) :=
  claim_C1 (fun c => c) 64 [Op.putif 1 5 7 OldV.ignore] wMap1 ⟨2, 5⟩ 9 3
    wPut1.1 wPut1.2 (by rfl) (by rfl)

/-- C2: in a sequential execution, for every key and non-zero value, a put
(`putif` with IGNORE) followed by a get of the same key content returns that
value, after any prior sequence of public operations on the map. -/
theorem claim_C2 (hashFn : Nat → Nat) (pf : Nat) (ops : List Op) (m : HM)
    (key : KeyPtr) (v : Nat) (m1 m2 : HM) (r1 r2 : PutOut)
    (hv : v ≠ 0)
    (hrun : run hashFn pf ops = some m)
    (hput : hashmap_putif hashFn pf m key v OldV.ignore = some (m1, r1))
    (hget : hashmap_get hashFn pf m1 key.content = some (m2, r2)) :
    r2 = PutOut.val v := by
  obtain ⟨hinv, _, _⟩ := run_inv hashFn pf ops m hrun
  have hput2 : putifLoop pf key (hmHash hashFn key.content) v OldV.ignore pf m =
      some (m1, r1) := hput
  obtain ⟨c1, _, c3, _⟩ :=
    putifLoop_effect hashFn pf key v OldV.ignore pf m m1 r1 hput2 hinv
  have hmv : mapVal key.content m1.kvs = v := c3 (Or.inl rfl)
  have hget2 : getRetry pf key.content (hmHash hashFn key.content) pf m1 =
      some (m2, r2) := hget
  obtain ⟨_, g2, _⟩ := getRetry_effect hashFn pf key.content pf m1 m2 r2 hget2 c1
  rw [g2, hmv]

def wPut2 : HM × PutOut :=
  (hashmap_putif (fun c => c) 64 wMap1 ⟨2, 6⟩ 9 OldV.ignore).getD
    (hashmap_new, PutOut.val 0)

def wGet2 : HM × PutOut :=
  (hashmap_get (fun c => c) 64 wPut2.1 6).getD (hashmap_new, PutOut.val 0)

theorem claim_C2_witness : wGet2.2 = PutOut.val 9 :=
  claim_C2 (fun c => c) 64 [Op.putif 1 5 7 OldV.ignore] wMap1 ⟨2, 6⟩ 9
    wPut2.1 wGet2.1 wPut2.2 wGet2.2 (by decide) (by rfl) (by rfl) (by rfl)

/-- C4: on a reachable map, the public wrappers never surface the SIZED
sentinel (nor DELETED) to the caller: every result is a plain value that is
either 0 or one of the values passed to the puts of the history. -/
theorem claim_C4 (hashFn : Nat → Nat) (pf : Nat) (ops : List Op) (m : HM)
    (c : Nat) (key : KeyPtr) (val : Nat) (oldval : OldV)
    (mg mp : HM) (rg rp : PutOut)
    (hrun : run hashFn pf ops = some m)
    (hget : hashmap_get hashFn pf m c = some (mg, rg))
    (hput : hashmap_putif hashFn pf m key val oldval = some (mp, rp)) :
    (rg ≠ PutOut.sized ∧ rg ≠ PutOut.deleted ∧
      ∃ v, rg = PutOut.val v ∧ (v = 0 ∨ v ∈ putVals ops)) ∧
    (rp ≠ PutOut.sized ∧ rp ≠ PutOut.deleted ∧
      ∃ v, rp = PutOut.val v ∧ (v = 0 ∨ v ∈ putVals ops)) := by
  obtain ⟨hinv, _, hvals⟩ := run_inv hashFn pf ops m hrun
  have hget2 : getRetry pf c (hmHash hashFn c) pf m = some (mg, rg) := hget
  obtain ⟨_, g2, _⟩ := getRetry_effect hashFn pf c pf m mg rg hget2 hinv
  have hput2 : putifLoop pf key (hmHash hashFn key.content) val oldval pf m =
      some (mp, rp) := hput
  obtain ⟨_, p2, _⟩ :=
    putifLoop_effect hashFn pf key val oldval pf m mp rp hput2 hinv
  subst g2
  subst p2
  refine ⟨⟨?_, ?_, mapVal c m.kvs, rfl, mapVal_ValsOK (putVals ops) m.kvs c hvals⟩,
    ⟨?_, ?_, mapVal key.content m.kvs, rfl,
      mapVal_ValsOK (putVals ops) m.kvs key.content hvals⟩⟩
  · intro hq
    cases hq
  · intro hq
    cases hq
  · intro hq
    cases hq
  · intro hq
    cases hq

def wGet4 : HM × PutOut :=
  (hashmap_get (fun c => c) 64 wMap1 5).getD (hashmap_new, PutOut.val 0)

def wPut4 : HM × PutOut :=
  (hashmap_putif (fun c => c) 64 wMap1 ⟨3, 6⟩ 4 OldV.ignore).getD
    (hashmap_new, PutOut.val 0)

theorem claim_C4_witness :
    (wGet4.2 ≠ PutOut.sized ∧ wGet4.2 ≠ PutOut.deleted ∧
      ∃ v, wGet4.2 = PutOut.val v ∧
        (v = 0 ∨ v ∈ putVals [Op.putif 1 5 7 OldV.ignore])) ∧
    (wPut4.2 ≠ PutOut.sized ∧ wPut4.2 ≠ PutOut.deleted ∧
      ∃ v, wPut4.2 = PutOut.val v ∧
        (v = 0 ∨ v ∈ putVals [Op.putif 1 5 7 OldV.ignore])) :=
  claim_C4 (fun c => c) 64 [Op.putif 1 5 7 OldV.ignore] wMap1 5 ⟨3, 6⟩ 4 OldV.ignore
    wGet4.1 wPut4.1 wGet4.2 wPut4.2 (by rfl) (by rfl) (by rfl)

/-- C5: after any sequential sequence of public operations, `hashmap_size` is
non-negative and equals the number of keys currently mapped to a non-zero
value. -/
theorem claim_C5 (hashFn : Nat → Nat) (pf : Nat) (ops : List Op) (m : HM)
    (h : run hashFn pf ops = some m) :
    0 ≤ hashmap_size m ∧ hashmap_size m = (countLive m.kvs : Int) := by
  obtain ⟨_, hsz, _⟩ := run_inv hashFn pf ops m h
  have hcl : hashmap_size m = m.ms.size := by
    unfold hashmap_size sizeClamp
    rw [if_neg (by omega)]
  refine ⟨?_, by rw [hcl, hsz]⟩
  rw [hcl, hsz]
  exact Int.ofNat_nonneg _

theorem claim_C5_witness :
    0 ≤ hashmap_size wMap1 ∧ hashmap_size wMap1 = (countLive wMap1.kvs : Int) :=
  claim_C5 (fun c => c) 64 [Op.putif 1 5 7 OldV.ignore] wMap1 (by rfl)
